import Mathlib

/-!
Verification of the core logic of the PremiereExportButton extension.

The development shallowly embeds the client orchestration code
(client/main.js: handleExport, handleBatchExport/processNextSequence,
parseSuffixPattern, the sanitizer) and the host-side helpers
(host/host.jsx: ExportButton_getNextVersionedFilenameWithPattern,
ExportButton_getProjectExportsPath, ExportButton_startAMEBatch).

Strings are modelled as lists of characters; JavaScript toLowerCase and
the case-insensitive regex flag are modelled per character, which agrees
with JavaScript on the ASCII repertoire the code manipulates.  Remote
calls (csInterface.evalScript) are modelled by environments that supply
each callback's parsed outcome; a parse failure (JSON.parse throwing, or
an undefined field making the callback body throw) is modelled as none.
-/

namespace ExportButton

/-- Per-character lower-casing, modelling JavaScript toLowerCase /
the regex i-flag on the ASCII characters handled by the code. -/
def lowChar (c : Char) : Char := c.toLower

/-- Case-insensitive character comparison (regex i-flag). -/
def lowEq (a b : Char) : Bool := lowChar a = lowChar b

/-- JavaScript nameLower.indexOf(baseLower) === 0 : the lower-cased
base is a prefix of the lower-cased name. -/
def startsWithLower (base name : List Char) : Bool :=
  List.isPrefixOf (base.map lowChar) (name.map lowChar)

/-- Decimal digit character for a value below ten. -/
def digitChar (n : Nat) : Char := Char.ofNat (48 + n)

/-- Decimal digit expansion with explicit recursion depth; the depth is
always sufficient when it exceeds the number being printed. -/
def natDigitsAux : Nat → Nat → List Char
  | 0, _ => []
  | fuel + 1, n =>
    if n < 10 then [digitChar n]
    else natDigitsAux fuel (n / 10) ++ [digitChar (n % 10)]

/-- Decimal digits of a natural number, most significant first,
modelling the JavaScript String(n) conversion on naturals. -/
def natDigits (n : Nat) : List Char := natDigitsAux (n + 1) n

/-- Numeric value of a list of decimal digit characters, modelling
parseInt on a non-empty all-digit string. -/
def digitsVal (l : List Char) : Nat :=
  l.foldl (fun a c => a * 10 + (c.toNat - 48)) 0

/-- JavaScript String.prototype.lastIndexOf for a single character,
returning -1 when the character does not occur. -/
def lastIdxOf (c : Char) (l : List Char) : Int :=
  l.foldl (fun (acc : Int × Nat) ch =>
    (if ch = c then (acc.2 : Int) else acc.1, acc.2 + 1)) (-1, 0) |>.1

/-- The extension-stripping step of the host resolver
(ExportButton_getNextVersionedFilenameWithPattern): rest is cut at the
last dot only when that dot sits at a positive index
(the source guard is dotIdx > 0, not dotIdx >= 0). -/
def stripExtGuarded (rest : List Char) : List Char :=
  let dotIdx := lastIdxOf '.' rest
  if dotIdx > 0 then rest.take dotIdx.toNat else rest

/-- Leftmost match of the regex underscore V digits (case-insensitive),
returning the parseInt value of the maximal digit run after the marker,
modelling rest.match of the version marker in the host resolver. -/
def findVNum : List Char → Option Nat
  | '_' :: c :: rest =>
    if (c = 'V' ∨ c = 'v') ∧ (rest.headD ' ').isDigit then
      some (digitsVal (rest.takeWhile Char.isDigit))
    else findVNum (c :: rest)
  | _ :: rest => findVNum rest
  | [] => none

/-- Candidate version contributed by one directory entry in the host
resolver scan: the lower-cased name must start with the lower-cased
base name; the base-name prefix is dropped from the original name, the
extension is stripped under the dotIdx > 0 guard, and the remainder is
searched for the underscore-V-digits marker. -/
def candVer (base name : List Char) : Option Nat :=
  if startsWithLower base name then
    findVNum (stripExtGuarded (name.drop base.length))
  else none

/-- The scan loop of the host resolver: fold over the folder entries
keeping the largest candidate version seen (0 when none matches). -/
def scanMaxVer (files : List (List Char)) (base : List Char) : Nat :=
  files.foldl (fun mx f =>
    match candVer base f with
    | some n => if n > mx then n else mx
    | none => mx) 0

/-- Result record of the host version resolver (the success and version
fields of the JSON reply that the client consumes). -/
structure VerResult where
  success : Bool
  version : Nat
  deriving Repr, DecidableEq

/-- A file system snapshot: an association from folder path to the list
of (decoded) file names it contains; a missing key models a folder that
does not exist on disk. -/
def FileSys := List (List Char × List (List Char))

/-- Lookup of a folder in the snapshot. -/
def FileSys.find (fs : FileSys) (p : List Char) : Option (List (List Char)) :=
  List.lookup p fs

/-- Host resolver ExportButton_getNextVersionedFilenameWithPattern
(host/host.jsx).  When the folder does not exist it replies success with
version 1 without consulting any listing; otherwise it scans the folder
entries and replies success with the maximal candidate version plus one.
The extension and suffixPattern arguments are accepted but never used by
the source logic; the function performs no writes, so the file system is
returned unchanged alongside the reply. -/
def ExportButton_getNextVersionedFilenameWithPattern
    (fs : FileSys) (folderPath baseName _extension _suffixPattern : List Char) :
    VerResult × FileSys :=
  match fs.find folderPath with
  | none => (⟨true, 1⟩, fs)
  | some files => (⟨true, scanMaxVer files baseName + 1⟩, fs)

/-! Claim-side resolver, written from the specification sentence: a file
is a candidate iff its lower-cased name starts with the lower-cased base
name and, after stripping the base-name prefix and the extension
(everything from the last dot onward, with no positive-index guard), the
remainder contains the underscore-V-digits marker. -/

/-- Extension stripping exactly as the specification words it: everything
from the last dot onward is removed whenever a dot occurs. -/
def stripExtSpec (rest : List Char) : List Char :=
  let dotIdx := lastIdxOf '.' rest
  if dotIdx ≥ 0 then rest.take dotIdx.toNat else rest

/-- Candidate version per the specification's wording of the resolver. -/
def candVerSpec (base name : List Char) : Option Nat :=
  if startsWithLower base name then
    findVNum (stripExtSpec (name.drop base.length))
  else none

/-- Next version as the specification words it: one plus the numeric
maximum of all candidate versions, or 1 when no file is a candidate. -/
def specNextVersion (files : List (List Char)) (base : List Char) : Nat :=
  ((files.filterMap (candVerSpec base)).foldr max 0) + 1

/-- Next version with the source's candidate rule, phrased as one plus a
maximum over the candidate list rather than as the source's running-fold
loop. -/
def codeNextVersion (files : List (List Char)) (base : List Char) : Nat :=
  ((files.filterMap (candVer base)).foldr max 0) + 1

theorem scanMaxVer_eq_foldr_max (files : List (List Char)) (base : List Char) :
    scanMaxVer files base = (files.filterMap (candVer base)).foldr max 0 := by
  suffices h : ∀ a, files.foldl (fun mx f =>
      match candVer base f with
      | some n => if n > mx then n else mx
      | none => mx) a = max a ((files.filterMap (candVer base)).foldr max 0) by
    have := h 0
    simpa [scanMaxVer] using this
  induction files with
  | nil => intro a; simp
  | cons f fs ih =>
    intro a
    cases hc : candVer base f with
    | none => simp [List.foldl, hc, ih, List.filterMap_cons]
    | some n =>
      simp only [List.foldl, hc, List.filterMap_cons, List.foldr, ih]
      rcases Nat.lt_or_ge a n with h | h
      · simp only [if_pos h]
        omega
      · have : ¬ n > a := Nat.not_lt.mpr h
        simp only [if_neg this]
        omega

/-- C1.  The specification's candidate rule and the host resolver differ
at the concrete listing that holds the single file Base._V3 with base
name Base: the code leaves the remainder unstripped when the last dot
sits at index 0 of the remainder (the dotIdx > 0 guard) and therefore
counts the file as a candidate of version 3 and answers 4, while the
claim's rule (strip everything from the last dot onward) sees no
candidate and predicts 1. -/
theorem claim_C1_counterexample :
    (ExportButton_getNextVersionedFilenameWithPattern
        [("folder".toList, ["Base._V3".toList])]
        "folder".toList "Base".toList "mp4".toList "pat".toList).1.version = 4
    ∧ specNextVersion ["Base._V3".toList] "Base".toList = 1
    ∧ (4 : Nat) ≠ 1 := by
  refine ⟨by decide, by decide, by decide⟩

/-- C1 (amended).  For every existing folder listing and base name the
resolver answers success with one plus the numeric maximum of all
candidate versions — a file being a candidate iff its lower-cased name
starts with the lower-cased base name and, after dropping the base-name
prefix and stripping from the last dot onward only when that dot is not
the first character of the remainder, the rest contains the
case-insensitive underscore-V-digits marker (the first such occurrence
supplying the version) — and 1 when no file is a candidate.  In
particular the listing Base_V1.mp4, Base_V2.mp4, Base_V10.mp4,
Other_V99.mp4 with base name Base yields version 11: the numeric, not
lexicographic, maximum, with Other_V99.mp4 excluded by the prefix
filter. -/
theorem claim_C1_amended :
    (∀ (fs : FileSys) (folderPath base ext pat : List Char) files,
        fs.find folderPath = some files →
        (ExportButton_getNextVersionedFilenameWithPattern fs folderPath base ext pat).1
          = ⟨true, codeNextVersion files base⟩)
    ∧ (ExportButton_getNextVersionedFilenameWithPattern
        [("folder".toList,
          ["Base_V1.mp4".toList, "Base_V2.mp4".toList,
           "Base_V10.mp4".toList, "Other_V99.mp4".toList])]
        "folder".toList "Base".toList "mp4".toList "pat".toList).1
        = ⟨true, 11⟩ := by
  constructor
  · intro fs folderPath base ext pat files hfind
    simp [ExportButton_getNextVersionedFilenameWithPattern, hfind,
      codeNextVersion, scanMaxVer_eq_foldr_max]
  · decide

/-- C1 (amended) at a concrete folder: the general resolver equation is
applied to a singleton file system, every hypothesis discharged by
evaluation. -/
theorem claim_C1_amended_witness :
    (ExportButton_getNextVersionedFilenameWithPattern
        [("d".toList, ["Base_V7".toList])]
        "d".toList "Base".toList "mp4".toList "p".toList).1
      = ⟨true, codeNextVersion ["Base_V7".toList] "Base".toList⟩ :=
  claim_C1_amended.1 [("d".toList, ["Base_V7".toList])]
    "d".toList "Base".toList "mp4".toList "p".toList
    ["Base_V7".toList] (by decide)

/-- C6.  For every folder path absent from the file system the resolver
replies success with version 1 while consulting no listing (the reply is
fixed whatever the other folders hold), and the resolver never writes:
the file system it returns is always the one it was given, so it never
creates the folder. -/
theorem claim_C6_missing_folder
    (fs : FileSys) (folderPath base ext pat : List Char)
    (habsent : fs.find folderPath = none) :
    ExportButton_getNextVersionedFilenameWithPattern fs folderPath base ext pat
      = (⟨true, 1⟩, fs)
    ∧ ∀ (fs' : FileSys) (base' ext' pat' : List Char),
        (ExportButton_getNextVersionedFilenameWithPattern fs' folderPath base' ext' pat').2
          = fs' := by
  constructor
  · simp [ExportButton_getNextVersionedFilenameWithPattern, habsent]
  · intro fs' base' ext' pat'
    cases h : fs'.find folderPath <;>
      simp [ExportButton_getNextVersionedFilenameWithPattern, h]

/-- C6 at a concrete file system: the folder named other exists but the
folder named missing does not, and the resolver answers success with
version 1, leaving the file system unchanged. -/
theorem claim_C6_missing_folder_witness :
    ExportButton_getNextVersionedFilenameWithPattern
        [("other".toList, ["Base_V9.mp4".toList])]
        "missing".toList "Base".toList "mp4".toList "p".toList
      = (⟨true, 1⟩, [("other".toList, ["Base_V9.mp4".toList])]) :=
  (claim_C6_missing_folder [("other".toList, ["Base_V9.mp4".toList])]
    "missing".toList "Base".toList "mp4".toList "p".toList (by decide)).1

/-! ## Token renderer (client/main.js parseSuffixPattern)

The client renders the naming pattern with four successive global
regex replacements: the version tokens (one or more V characters inside
braces, case-insensitive) through a callback producing the zero-padded
version, then the literal DATE, TIME and SEQ tokens (case-insensitive)
by plain string substitution.  Replaced text is never rescanned, which
the scanners below reproduce by continuing after each replacement. -/

/-- JavaScript String(version).padStart(width, zero): the decimal digits
of the version left-padded with zeros up to the width, never
truncated. -/
def padVer (v width : Nat) : List Char :=
  List.replicate (width - (natDigits v).length) '0' ++ natDigits v

/-- The wall-clock fields that parseSuffixPattern reads from the
JavaScript Date object (month is zero-based, as getMonth is). -/
structure Clock where
  fullYear : Nat
  month : Nat
  date : Nat
  hours : Nat
  minutes : Nat

/-- The date string of parseSuffixPattern: full year, dash, one-based
month padded to two digits, dash, day padded to two digits. -/
def dateStr (clk : Clock) : List Char :=
  natDigits clk.fullYear ++ '-' :: (padVer (clk.month + 1) 2 ++ '-' :: padVer clk.date 2)

/-- The time string of parseSuffixPattern: hours and minutes each padded
to two digits, separated by a dash. -/
def timeStr (clk : Clock) : List Char :=
  padVer clk.hours 2 ++ '-' :: padVer clk.minutes 2

/-- Case-insensitive match of a literal token against the head of the
input, returning the input after the token on success. -/
def matchTokCI : List Char → List Char → Option (List Char)
  | [], s => some s
  | _ :: _, [] => none
  | t :: ts, c :: cs => if lowEq t c then matchTokCI ts cs else none

/-- Count of leading V or v characters, with the remaining input. -/
def takeVs : List Char → Nat × List Char
  | [] => (0, [])
  | c :: rest =>
    if c = 'V' ∨ c = 'v' then
      ((takeVs rest).1 + 1, (takeVs rest).2)
    else (0, c :: rest)

/-- Match of the version-token regex at the head of the input: an
opening brace, one or more V or v characters, then a closing brace;
returns the count of V characters and the input after the token. -/
def matchVTok : List Char → Option (Nat × List Char)
  | [] => none
  | c :: rest =>
    if c = '\x7b' then
      match takeVs rest with
      | (0, _) => none
      | (k + 1, r) =>
        match r with
        | c2 :: r2 => if c2 = '\x7d' then some (k + 1, r2) else none
        | [] => none
    else none

/-- Global replacement of version tokens, scanning left to right; the
counter consumes the remaining characters of a token just replaced, so
replacements are never rescanned. -/
def replVGo (v : Nat) : Nat → List Char → List Char
  | _ + 1, [] => []
  | skip + 1, _ :: cs => replVGo v skip cs
  | 0, [] => []
  | 0, c :: cs =>
    match matchVTok (c :: cs) with
    | some (k, _) => padVer v k ++ replVGo v (k + 1) cs
    | none => c :: replVGo v 0 cs

/-- Global replacement of version tokens (the first replace call of
parseSuffixPattern). -/
def replV (v : Nat) (l : List Char) : List Char := replVGo v 0 l

/-- GetSubstitution of String.prototype.replace for a string-valued
replacement and a capture-free pattern: a dollar followed by a second
dollar collapses to one dollar, a dollar followed by an ampersand
inserts the matched text, a dollar followed by a backquote inserts the
part of the subject before the match, a dollar followed by a quote
inserts the part after the match, and a dollar followed by anything
else (or ending the template) is literal — with no capture groups the
digit forms are literal too. -/
def expandDollar : List Char → List Char → List Char → List Char → List Char
  | [], _, _, _ => []
  | c :: r, m, b, a =>
    if c = '$' then
      match r with
      | [] => ['$']
      | c2 :: r2 =>
        if c2 = '$' then '$' :: expandDollar r2 m b a
        else if c2 = '&' then m ++ expandDollar r2 m b a
        else if c2 = '\x60' then b ++ expandDollar r2 m b a
        else if c2 = '\x27' then a ++ expandDollar r2 m b a
        else '$' :: expandDollar (c2 :: r2) m b a
    else c :: expandDollar r m b a

/-- Whether a replacement template holds an effective dollar escape — a
dollar directly followed by a dollar, an ampersand, a backquote or a
quote — that is, whether GetSubstitution can differ from inserting the
template verbatim. -/
def hasDollarEscape : List Char → Bool
  | [] => false
  | c :: r =>
    if c = '$' then
      match r with
      | [] => false
      | c2 :: r2 =>
        (c2 = '$' || c2 = '&' || c2 = '\x60' || c2 = '\x27')
          || hasDollarEscape (c2 :: r2)
    else hasDollarEscape r

/-- Global case-insensitive replacement of one literal token by a
replacement template, scanning left to right without rescanning
replacements; the first list argument accumulates, reversed, the
subject characters already passed, so that each match can expand the
template against the text before and after it, as
String.prototype.replace does. -/
def replTokGo (tok rep : List Char) : List Char → Nat → List Char → List Char
  | _, _ + 1, [] => []
  | rpre, skip + 1, x :: cs => replTokGo tok rep (x :: rpre) skip cs
  | _, 0, [] => []
  | rpre, 0, c :: cs =>
    match matchTokCI tok (c :: cs) with
    | some rest =>
      expandDollar rep ((c :: cs).take tok.length) rpre.reverse rest
        ++ replTokGo tok rep (c :: rpre) (tok.length - 1) cs
    | none => c :: replTokGo tok rep (c :: rpre) 0 cs

/-- Global case-insensitive replacement of one literal token. -/
def replTok (tok rep l : List Char) : List Char := replTokGo tok rep [] 0 l

/-- The DATE token after its opening brace. -/
def DATEtokTail : List Char := ['d', 'a', 't', 'e', '\x7d']

/-- The DATE token. -/
def DATEtok : List Char := '\x7b' :: DATEtokTail

/-- The TIME token after its opening brace. -/
def TIMEtokTail : List Char := ['t', 'i', 'm', 'e', '\x7d']

/-- The TIME token. -/
def TIMEtok : List Char := '\x7b' :: TIMEtokTail

/-- The SEQ token after its opening brace. -/
def SEQtokTail : List Char := ['s', 'e', 'q', '\x7d']

/-- The SEQ token. -/
def SEQtok : List Char := '\x7b' :: SEQtokTail

/-- parseSuffixPattern (client/main.js): version tokens first, then the
DATE, TIME and SEQ tokens, in the order of the source's replace
chain. -/
def parseSuffixPattern (pattern : List Char) (version : Nat)
    (sequenceName : List Char) (clk : Clock) : List Char :=
  replTok SEQtok sequenceName
    (replTok TIMEtok (timeStr clk)
      (replTok DATEtok (dateStr clk)
        (replV version pattern)))

/-- Claim-side renderer: a single left-to-right pass that, at each
position, replaces a version token with the padded version, a DATE,
TIME or SEQ token with its value, and otherwise copies the character —
unrecognized text is left verbatim and replacements are never
rescanned. -/
def claimRenderGo (v : Nat) (name d t : List Char) : Nat → List Char → List Char
  | _ + 1, [] => []
  | skip + 1, _ :: cs => claimRenderGo v name d t skip cs
  | 0, [] => []
  | 0, c :: cs =>
    match matchVTok (c :: cs) with
    | some (k, _) => padVer v k ++ claimRenderGo v name d t (k + 1) cs
    | none =>
      match matchTokCI DATEtok (c :: cs) with
      | some _ => d ++ claimRenderGo v name d t 5 cs
      | none =>
        match matchTokCI TIMEtok (c :: cs) with
        | some _ => t ++ claimRenderGo v name d t 5 cs
        | none =>
          match matchTokCI SEQtok (c :: cs) with
          | some _ => name ++ claimRenderGo v name d t 4 cs
          | none => c :: claimRenderGo v name d t 0 cs

/-- Claim-side renderer entry point. -/
def claimRender (v : Nat) (name d t p : List Char) : List Char :=
  claimRenderGo v name d t 0 p

/-! ## Character classifications used by the renderer proofs -/

/-- Characters that the renderer inserts (digits of the version padding
and of the date and time strings, plus the dash): fixed by lower-casing,
distinct from the opening brace, and either a digit or a dash. -/
def inertChar (c : Char) : Prop :=
  lowChar c = c ∧ c ≠ '\x7b' ∧ (c.isDigit ∨ c = '-')

/-- Characters occurring after the opening brace of a literal token:
their lower-case form is neither an opening brace, a digit, nor a
dash. -/
def tokTailChar (c : Char) : Prop :=
  lowChar c ≠ '\x7b' ∧ ¬ (lowChar c).isDigit ∧ lowChar c ≠ '-'

instance (c : Char) : Decidable (tokTailChar c) := by
  unfold tokTailChar
  infer_instance

theorem inertChar_digitChar (n : Nat) (h : n < 10) : inertChar (digitChar n) := by
  interval_cases n <;> exact by constructor <;> simp_all <;> decide

theorem natDigitsAux_inert (fuel n : Nat) :
    ∀ c ∈ natDigitsAux fuel n, inertChar c := by
  induction fuel generalizing n with
  | zero => intro c hc; simp [natDigitsAux] at hc
  | succ fuel ih =>
    intro c hc
    by_cases h : n < 10
    · simp [natDigitsAux, h] at hc
      exact hc ▸ inertChar_digitChar n h
    · simp [natDigitsAux, h] at hc
      rcases hc with hc | hc
      · exact ih (n / 10) c hc
      · exact hc ▸ inertChar_digitChar (n % 10) (Nat.mod_lt n (by decide))

theorem natDigits_inert (n : Nat) : ∀ c ∈ natDigits n, inertChar c :=
  natDigitsAux_inert (n + 1) n

theorem natDigits_ne_nil (n : Nat) : natDigits n ≠ [] := by
  unfold natDigits natDigitsAux
  by_cases h : n < 10 <;> simp [h]

theorem padVer_inert (v k : Nat) : ∀ c ∈ padVer v k, inertChar c := by
  intro c hc
  simp [padVer] at hc
  rcases hc with ⟨_, hc⟩ | hc
  · exact hc ▸ ⟨by decide, by decide, Or.inl (by decide)⟩
  · exact natDigits_inert v c hc

theorem padVer_ne_nil (v k : Nat) : padVer v k ≠ [] := by
  simp [padVer, natDigits_ne_nil v]

theorem dateStr_inert (clk : Clock) : ∀ c ∈ dateStr clk, inertChar c := by
  intro c hc
  simp [dateStr] at hc
  rcases hc with hc | hc | hc | hc | hc
  · exact natDigits_inert _ c hc
  · exact hc ▸ ⟨by decide, by decide, Or.inr rfl⟩
  · exact padVer_inert _ _ c hc
  · exact hc ▸ ⟨by decide, by decide, Or.inr rfl⟩
  · exact padVer_inert _ _ c hc

theorem timeStr_inert (clk : Clock) : ∀ c ∈ timeStr clk, inertChar c := by
  intro c hc
  simp [timeStr] at hc
  rcases hc with hc | hc | hc
  · exact padVer_inert _ _ c hc
  · exact hc ▸ ⟨by decide, by decide, Or.inr rfl⟩
  · exact padVer_inert _ _ c hc

theorem timeStr_ne_nil (clk : Clock) : timeStr clk ≠ [] := by
  simp [timeStr, padVer]

theorem dateStr_ne_nil (clk : Clock) : dateStr clk ≠ [] := by
  simp [dateStr, natDigits_ne_nil clk.fullYear]

/-- A token-tail character never compares equal, case-insensitively, to
an inserted character. -/
theorem tokTail_lowEq_inert (a b : Char) (ha : tokTailChar a) (hb : inertChar b) :
    lowEq a b = false := by
  rcases ha with ⟨_, ha2, ha3⟩
  rcases hb with ⟨hb1, _, hb3⟩
  simp only [lowEq, decide_eq_false_iff_not]
  intro h
  rcases hb3 with hd | hd
  · exact ha2 (by rw [h, hb1]; exact hd)
  · exact ha3 (by rw [h, hb1, hd])

/-- An inserted character never opens a token. -/
theorem inert_ne_lbrace (c : Char) (h : inertChar c) : lowChar c ≠ '\x7b' := by
  rcases h with ⟨h1, h2, _⟩
  rw [h1]; exact h2

/-- An inserted character is never a dollar. -/
theorem inert_ne_dollar (c : Char) (h : inertChar c) : c ≠ '$' := by
  rcases h with ⟨_, _, hd | hd⟩
  · intro heq
    rw [heq] at hd
    exact absurd hd (by decide)
  · intro heq
    rw [heq] at hd
    exact absurd hd (by decide)

/-- A dollar-free replacement template holds no dollar escape. -/
theorem no_dollar_no_escape :
    ∀ rep : List Char, (∀ c ∈ rep, c ≠ '$') → hasDollarEscape rep = false := by
  intro rep
  induction rep with
  | nil => intro _; rfl
  | cons c r ih =>
    intro hnd
    rw [hasDollarEscape.eq_def]
    dsimp only
    rw [if_neg (hnd c (by simp))]
    exact ih (fun x hx => hnd x (by simp [hx]))

theorem dateStr_no_escape (clk : Clock) : hasDollarEscape (dateStr clk) = false :=
  no_dollar_no_escape _ (fun c hc => inert_ne_dollar c (dateStr_inert clk c hc))

theorem timeStr_no_escape (clk : Clock) : hasDollarEscape (timeStr clk) = false :=
  no_dollar_no_escape _ (fun c hc => inert_ne_dollar c (timeStr_inert clk c hc))

/-- On an escape-free template, GetSubstitution inserts the template
verbatim, whatever the match and its surroundings are. -/
theorem expandDollar_no_escape :
    ∀ rep : List Char, hasDollarEscape rep = false →
      ∀ m b a, expandDollar rep m b a = rep := by
  intro rep
  induction rep with
  | nil => intro _ m b a; rfl
  | cons c r ih =>
    intro h m b a
    by_cases hc : c = '$'
    · subst hc
      cases r with
      | nil => rfl
      | cons c2 r2 =>
        rw [hasDollarEscape.eq_def] at h
        dsimp only at h
        rw [if_pos rfl] at h
        simp only [Bool.or_eq_false_iff, decide_eq_false_iff_not] at h
        obtain ⟨⟨⟨⟨h1, h2⟩, h3⟩, h4⟩, h5⟩ := h
        rw [expandDollar.eq_def]
        dsimp only
        rw [if_pos rfl, if_neg h1, if_neg h2, if_neg h3, if_neg h4, ih h5 m b a]
    · rw [expandDollar.eq_def]
      dsimp only
      rw [if_neg hc]
      rw [hasDollarEscape.eq_def] at h
      dsimp only at h
      rw [if_neg hc] at h
      rw [ih h m b a]

/-! ## Matcher decomposition lemmas -/

/-- A successful case-insensitive token match splits the input into a
consumed block, pointwise lower-case-equal to the token, and the
returned remainder. -/
theorem matchTokCI_some (tok : List Char) :
    ∀ s rest, matchTokCI tok s = some rest →
      ∃ a, s = a ++ rest ∧ List.Forall₂ (fun t c => lowEq t c = true) tok a := by
  induction tok with
  | nil =>
    intro s rest h
    simp [matchTokCI] at h
    exact ⟨[], by simp [h], List.Forall₂.nil⟩
  | cons t ts ih =>
    intro s rest h
    cases s with
    | nil => simp [matchTokCI] at h
    | cons c cs =>
      by_cases hc : lowEq t c
      · simp [matchTokCI, hc] at h
        obtain ⟨a, ha, hall⟩ := ih cs rest h
        exact ⟨c :: a, by simp [ha], List.Forall₂.cons hc hall⟩
      · simp [matchTokCI, hc] at h

/-- A block pointwise lower-case-equal to the token matches in any
context, leaving exactly the context. -/
theorem matchTokCI_transfer {tok a : List Char}
    (h : List.Forall₂ (fun t c => lowEq t c = true) tok a) :
    ∀ X, matchTokCI tok (a ++ X) = some X := by
  induction h with
  | nil => intro X; simp [matchTokCI]
  | cons hc _ ih => intro X; simp [matchTokCI, hc, ih]

/-- A failed token match that already fails within the first block keeps
failing when the text after the block changes. -/
theorem matchTokCI_fail_transfer (tok : List Char) :
    ∀ a b b', matchTokCI tok (a ++ b) = none → tok.length ≤ a.length →
      matchTokCI tok (a ++ b') = none := by
  induction tok with
  | nil => intro a b b' h _; simp [matchTokCI] at h
  | cons t ts ih =>
    intro a b b' h hlen
    cases a with
    | nil => simp at hlen
    | cons c a' =>
      by_cases hc : lowEq t c
      · simp [matchTokCI, hc] at h ⊢
        exact ih a' b b' h (by simpa using hlen)
      · simp [matchTokCI, hc]

/-- Decomposition of the leading-V counter. -/
theorem takeVs_spec : ∀ l k r, takeVs l = (k, r) →
    ∃ vs, l = vs ++ r ∧ vs.length = k ∧ ∀ c ∈ vs, c = 'V' ∨ c = 'v' := by
  intro l
  induction l with
  | nil =>
    intro k r h
    simp [takeVs] at h
    exact ⟨[], by simp [h.1, h.2], by simp [h.1], by simp⟩
  | cons c cs ih =>
    intro k r h
    by_cases hc : c = 'V' ∨ c = 'v'
    · rw [takeVs, if_pos hc] at h
      have hk : (takeVs cs).1 + 1 = k := congrArg Prod.fst h
      have hr : (takeVs cs).2 = r := congrArg Prod.snd h
      obtain ⟨vs, h1, h2, h3⟩ := ih (takeVs cs).1 (takeVs cs).2 rfl
      refine ⟨c :: vs, ?_, ?_, ?_⟩
      · rw [List.cons_append, ← hr, ← h1]
      · rw [List.length_cons, h2, hk]
      · intro x hx
        rcases List.mem_cons.mp hx with hx | hx
        · exact hx ▸ hc
        · exact h3 x hx
    · rw [takeVs, if_neg hc] at h
      have hk : 0 = k := congrArg Prod.fst h
      have hr : c :: cs = r := congrArg Prod.snd h
      exact ⟨[], by rw [List.nil_append, hr], by rw [← hk]; rfl, by simp⟩

/-- Decomposition of a successful version-token match: an opening brace,
a positive count of V characters, a closing brace, then the rest. -/
theorem matchVTok_some : ∀ l k rest, matchVTok l = some (k, rest) →
    ∃ vs, l = '\x7b' :: vs ++ '\x7d' :: rest ∧ vs.length = k ∧ 0 < k ∧
      ∀ c ∈ vs, c = 'V' ∨ c = 'v' := by
  intro l k rest h
  cases l with
  | nil => simp [matchVTok] at h
  | cons c cs =>
    by_cases hc : c = '\x7b'
    · rw [matchVTok, if_pos hc] at h
      rcases htv : takeVs cs with ⟨kv, r⟩
      rw [htv] at h
      cases kv with
      | zero => simp at h
      | succ k' =>
        cases r with
        | nil => simp at h
        | cons c2 r2 =>
          by_cases hc2 : c2 = '\x7d'
          · simp [hc2] at h
            obtain ⟨vs, h1, h2, h3⟩ := takeVs_spec cs _ _ htv
            exact ⟨vs, by simp [hc, hc2, h1, ← h.2, h.1], by simp [h2, h.1], by omega, h3⟩
          · simp [hc2] at h
    · rw [matchVTok, if_neg hc] at h
      simp at h

/-- V characters are not braces, so a version-token block never contains
an opening brace beyond its first character. -/
theorem vchar_ne_lbrace (c : Char) (h : c = 'V' ∨ c = 'v') : lowChar c ≠ '\x7b' := by
  rcases h with h | h <;> rw [h] <;> decide

/-! ## Scanner step equations -/

theorem replVGo_skip (v : Nat) : ∀ skip l, replVGo v skip l = replV v (l.drop skip) := by
  intro skip
  induction skip with
  | zero => intro l; rfl
  | succ n ih =>
    intro l
    cases l with
    | nil => cases n <;> rfl
    | cons c cs => rw [List.drop_succ_cons, ← ih cs]; rfl

/-- With an escape-free template the scanner never reads the
accumulated prefix: the template is inserted verbatim at every
match. -/
theorem replTokGo_rpre_indep (tok rep : List Char) (hde : hasDollarEscape rep = false) :
    ∀ (l : List Char) (skip : Nat) (rpre rpre' : List Char),
      replTokGo tok rep rpre skip l = replTokGo tok rep rpre' skip l := by
  intro l
  induction l with
  | nil => intro skip rpre rpre'; cases skip <;> rfl
  | cons c cs ih =>
    intro skip rpre rpre'
    cases skip with
    | succ n => exact ih n (c :: rpre) (c :: rpre')
    | zero =>
      cases hm : matchTokCI tok (c :: cs) with
      | some rest =>
        rw [replTokGo, replTokGo, hm]
        dsimp only
        rw [expandDollar_no_escape rep hde, expandDollar_no_escape rep hde,
            ih (tok.length - 1) (c :: rpre) (c :: rpre')]
      | none =>
        rw [replTokGo, replTokGo, hm]
        dsimp only
        rw [ih 0 (c :: rpre) (c :: rpre')]

/-- With an escape-free template, skipping consumes characters and then
continues as a fresh replacement of the remaining text. -/
theorem replTokGo_skip (tok rep : List Char) (hde : hasDollarEscape rep = false) :
    ∀ (skip : Nat) (l rpre : List Char),
      replTokGo tok rep rpre skip l = replTok tok rep (l.drop skip) := by
  intro skip
  induction skip with
  | zero =>
    intro l rpre
    rw [List.drop_zero]
    exact replTokGo_rpre_indep tok rep hde l 0 rpre []
  | succ n ih =>
    intro l rpre
    cases l with
    | nil => rfl
    | cons x cs =>
      rw [List.drop_succ_cons, ← ih cs (x :: rpre)]
      rfl

theorem claimRenderGo_skip (v : Nat) (name d t : List Char) :
    ∀ skip l, claimRenderGo v name d t skip l = claimRender v name d t (l.drop skip) := by
  intro skip
  induction skip with
  | zero => intro l; rfl
  | succ n ih =>
    intro l
    cases l with
    | nil => cases n <;> rfl
    | cons c cs => rw [List.drop_succ_cons, ← ih cs]; rfl

theorem replV_cons_pos (v k : Nat) (c : Char) (cs rest : List Char)
    (h : matchVTok (c :: cs) = some (k, rest)) :
    replV v (c :: cs) = padVer v k ++ replV v rest := by
  obtain ⟨vs, h1, h2, _, _⟩ := matchVTok_some (c :: cs) k rest h
  have hdrop : cs.drop (k + 1) = rest := by
    have hcs : cs = vs ++ '\x7d' :: rest := by
      have := congrArg List.tail h1
      simpa using this
    rw [hcs, ← h2, List.drop_append 1]
    rfl
  show replVGo v 0 (c :: cs) = _
  rw [replVGo, h]
  dsimp only
  rw [replVGo_skip, hdrop]

theorem replV_cons_neg (v : Nat) (c : Char) (cs : List Char)
    (h : matchVTok (c :: cs) = none) :
    replV v (c :: cs) = c :: replV v cs := by
  show replVGo v 0 (c :: cs) = _
  rw [replVGo, h]
  rfl

theorem replTok_cons_pos (t0 : Char) (ts rep : List Char)
    (hde : hasDollarEscape rep = false) (c : Char) (cs rest : List Char)
    (h : matchTokCI (t0 :: ts) (c :: cs) = some rest) :
    replTok (t0 :: ts) rep (c :: cs) = rep ++ replTok (t0 :: ts) rep rest := by
  obtain ⟨a, ha, hall⟩ := matchTokCI_some (t0 :: ts) (c :: cs) rest h
  have hlen : a.length = ts.length + 1 := by
    have := List.Forall₂.length_eq hall
    simpa using this.symm
  have hdrop : cs.drop ts.length = rest := by
    cases a with
    | nil => simp at hlen
    | cons a0 a' =>
      have hcs : cs = a' ++ rest := by
        have := congrArg List.tail ha
        simpa using this
      have hlen' : a'.length = ts.length := by simpa using hlen
      rw [hcs, ← hlen', List.drop_append_of_le_length (by omega)]
      simp
  show replTokGo (t0 :: ts) rep [] 0 (c :: cs) = _
  rw [replTokGo, h]
  dsimp only
  rw [expandDollar_no_escape rep hde, replTokGo_skip (t0 :: ts) rep hde]
  simp only [List.length_cons, Nat.add_sub_cancel]
  rw [hdrop]

theorem replTok_cons_neg (tok rep : List Char) (hde : hasDollarEscape rep = false)
    (c : Char) (cs : List Char) (h : matchTokCI tok (c :: cs) = none) :
    replTok tok rep (c :: cs) = c :: replTok tok rep cs := by
  show replTokGo tok rep [] 0 (c :: cs) = _
  rw [replTokGo, h]
  dsimp only
  rw [replTokGo_skip tok rep hde 0 cs (c :: []), List.drop_zero]

theorem replTok_nil (tok rep : List Char) : replTok tok rep [] = [] := rfl

theorem replV_nil (v : Nat) : replV v [] = [] := rfl

/-! ## Claim-side renderer step equations -/

theorem claimRender_cons_v (v k : Nat) (name d t : List Char) (c : Char)
    (cs rest : List Char) (h : matchVTok (c :: cs) = some (k, rest)) :
    claimRender v name d t (c :: cs) = padVer v k ++ claimRender v name d t rest := by
  obtain ⟨vs, h1, h2, _, _⟩ := matchVTok_some (c :: cs) k rest h
  have hdrop : cs.drop (k + 1) = rest := by
    have hcs : cs = vs ++ '\x7d' :: rest := by
      have := congrArg List.tail h1
      simpa using this
    rw [hcs, ← h2, List.drop_append 1]
    rfl
  show claimRenderGo v name d t 0 (c :: cs) = _
  rw [claimRenderGo, h]
  dsimp only
  rw [claimRenderGo_skip, hdrop]

/-- Remainder of a successful six-character token match, as a drop of
five characters past the head. -/
theorem tok6_drop (tok : List Char) (hlen : tok.length = 6) (c : Char)
    (cs rest : List Char) (h : matchTokCI tok (c :: cs) = some rest) :
    cs.drop 5 = rest := by
  obtain ⟨a, ha, hall⟩ := matchTokCI_some tok (c :: cs) rest h
  have hal : a.length = 6 := by rw [← List.Forall₂.length_eq hall, hlen]
  cases a with
  | nil => simp at hal
  | cons a0 a' =>
    have hcs : cs = a' ++ rest := by
      have := congrArg List.tail ha
      simpa using this
    have h5 : a'.length = 5 := by simpa using hal
    rw [hcs, ← h5, List.drop_left]

/-- Remainder of a successful five-character token match, as a drop of
four characters past the head. -/
theorem tok5_drop (tok : List Char) (hlen : tok.length = 5) (c : Char)
    (cs rest : List Char) (h : matchTokCI tok (c :: cs) = some rest) :
    cs.drop 4 = rest := by
  obtain ⟨a, ha, hall⟩ := matchTokCI_some tok (c :: cs) rest h
  have hal : a.length = 5 := by rw [← List.Forall₂.length_eq hall, hlen]
  cases a with
  | nil => simp at hal
  | cons a0 a' =>
    have hcs : cs = a' ++ rest := by
      have := congrArg List.tail ha
      simpa using this
    have h4 : a'.length = 4 := by simpa using hal
    rw [hcs, ← h4, List.drop_left]

theorem claimRender_cons_date (v : Nat) (name d t : List Char) (c : Char)
    (cs rest : List Char) (hv : matchVTok (c :: cs) = none)
    (hd : matchTokCI DATEtok (c :: cs) = some rest) :
    claimRender v name d t (c :: cs) = d ++ claimRender v name d t rest := by
  show claimRenderGo v name d t 0 (c :: cs) = _
  rw [claimRenderGo, hv, hd]
  dsimp only
  rw [claimRenderGo_skip, tok6_drop DATEtok (by decide) c cs rest hd]

theorem claimRender_cons_time (v : Nat) (name d t : List Char) (c : Char)
    (cs rest : List Char) (hv : matchVTok (c :: cs) = none)
    (hd : matchTokCI DATEtok (c :: cs) = none)
    (ht : matchTokCI TIMEtok (c :: cs) = some rest) :
    claimRender v name d t (c :: cs) = t ++ claimRender v name d t rest := by
  show claimRenderGo v name d t 0 (c :: cs) = _
  rw [claimRenderGo, hv, hd, ht]
  dsimp only
  rw [claimRenderGo_skip, tok6_drop TIMEtok (by decide) c cs rest ht]

theorem claimRender_cons_seq (v : Nat) (name d t : List Char) (c : Char)
    (cs rest : List Char) (hv : matchVTok (c :: cs) = none)
    (hd : matchTokCI DATEtok (c :: cs) = none)
    (ht : matchTokCI TIMEtok (c :: cs) = none)
    (hs : matchTokCI SEQtok (c :: cs) = some rest) :
    claimRender v name d t (c :: cs) = name ++ claimRender v name d t rest := by
  show claimRenderGo v name d t 0 (c :: cs) = _
  rw [claimRenderGo, hv, hd, ht, hs]
  dsimp only
  rw [claimRenderGo_skip, tok5_drop SEQtok (by decide) c cs rest hs]

theorem claimRender_cons_none (v : Nat) (name d t : List Char) (c : Char)
    (cs : List Char) (hv : matchVTok (c :: cs) = none)
    (hd : matchTokCI DATEtok (c :: cs) = none)
    (ht : matchTokCI TIMEtok (c :: cs) = none)
    (hs : matchTokCI SEQtok (c :: cs) = none) :
    claimRender v name d t (c :: cs) = c :: claimRender v name d t cs := by
  show claimRenderGo v name d t 0 (c :: cs) = _
  rw [claimRenderGo, hv, hd, ht, hs]
  rfl

/-! ## Pass-over lemmas: scanners copy blocks that open no token -/

/-- A literal-token replacement pass copies any block whose characters
never lower-case to an opening brace, accumulating the block into the
passed-prefix argument. -/
theorem replTokGo_pass (t0 : Char) (ts rep : List Char) (ht0 : lowChar t0 = '\x7b') :
    ∀ a : List Char, (∀ c ∈ a, lowChar c ≠ '\x7b') → ∀ b rpre : List Char,
      replTokGo (t0 :: ts) rep rpre 0 (a ++ b)
        = a ++ replTokGo (t0 :: ts) rep (a.reverse ++ rpre) 0 b := by
  intro a
  induction a with
  | nil => intro _ b rpre; simp
  | cons c a' ih =>
    intro hinert b rpre
    have hc : lowChar c ≠ '\x7b' := hinert c (by simp)
    have hmatch : matchTokCI (t0 :: ts) (c :: (a' ++ b)) = none := by
      have hf : lowEq t0 c = false := by
        simp only [lowEq, decide_eq_false_iff_not, ht0]
        intro hcontra
        exact hc hcontra.symm
      simp [matchTokCI, hf]
    rw [List.cons_append, replTokGo, hmatch]
    dsimp only
    rw [ih (fun x hx => hinert x (by simp [hx])) b (c :: rpre)]
    simp

/-- A literal-token replacement pass with an escape-free template copies
any block whose characters never lower-case to an opening brace. -/
theorem replTok_pass (t0 : Char) (ts rep : List Char) (ht0 : lowChar t0 = '\x7b')
    (hde : hasDollarEscape rep = false) :
    ∀ a b, (∀ c ∈ a, lowChar c ≠ '\x7b') →
      replTok (t0 :: ts) rep (a ++ b) = a ++ replTok (t0 :: ts) rep b := by
  intro a b ha
  rw [replTok, replTokGo_pass t0 ts rep ht0 a ha b []]
  rw [replTok, replTokGo_rpre_indep (t0 :: ts) rep hde b 0 (a.reverse ++ []) []]

/-- The version-token pass copies any block whose characters never
lower-case to an opening brace. -/
theorem replV_pass (v : Nat) :
    ∀ a b, (∀ c ∈ a, lowChar c ≠ '\x7b') →
      replV v (a ++ b) = a ++ replV v b := by
  intro a
  induction a with
  | nil => intro b _; rfl
  | cons c a' ih =>
    intro b hinert
    have hc : c ≠ '\x7b' := by
      intro hcontra
      exact hinert c (by simp) (by rw [hcontra]; decide)
    have hmatch : matchVTok (c :: (a' ++ b)) = none := by
      rw [matchVTok, if_neg hc]
    rw [List.cons_append, replV_cons_neg _ _ _ hmatch, ih b (fun x hx => hinert x (by simp [hx]))]
    simp

/-- An entirely inert string is left unchanged by a literal-token
replacement pass. -/
theorem replTok_inert_fix (t0 : Char) (ts rep a : List Char) (ht0 : lowChar t0 = '\x7b')
    (ha : ∀ c ∈ a, lowChar c ≠ '\x7b') : replTok (t0 :: ts) rep a = a := by
  have h := replTokGo_pass t0 ts rep ht0 a ha [] []
  rw [List.append_nil] at h
  rw [replTok, h,
      show replTokGo (t0 :: ts) rep (a.reverse ++ []) 0 [] = [] from rfl,
      List.append_nil]

/-! ## Fail-preservation: earlier passes never create new token
occurrences at a position where the original text had none -/

/-- Characters pointwise lower-case-equal to token-tail characters are
themselves no opening braces. -/
theorem forall2_tokTail_no_lbrace :
    ∀ tl a : List Char, List.Forall₂ (fun t c => lowEq t c = true) tl a →
      (∀ ch ∈ tl, tokTailChar ch) → ∀ x ∈ a, lowChar x ≠ '\x7b' := by
  intro tl
  induction tl with
  | nil =>
    intro a hall _ x hx
    cases hall
    simp at hx
  | cons t ts ih =>
    intro a hall htl x hx
    cases a with
    | nil => simp at hx
    | cons a0 a' =>
      cases hall with
      | cons h1 h2 =>
        rcases List.mem_cons.mp hx with hx | hx
        · subst hx
          have ht := (htl t (by simp)).1
          have heq : lowChar t = lowChar x := by simpa [lowEq] using h1
          rw [← heq]; exact ht
        · exact ih a' h2 (fun ch hch => htl ch (by simp [hch])) x hx

/-- A failing token-tail match keeps failing after the version pass
rewrites the text: the pass only inserts digits, which never compare
equal to a token-tail character. -/
theorem matchTail_none_replV (v : Nat) :
    ∀ cs tl, (∀ ch ∈ tl, tokTailChar ch) → matchTokCI tl cs = none →
      matchTokCI tl (replV v cs) = none := by
  intro cs
  induction cs with
  | nil => intro tl _ h; exact h
  | cons c cs' ih =>
    intro tl htl h
    cases tl with
    | nil => simp [matchTokCI] at h
    | cons t0 tl' =>
      cases hm : matchVTok (c :: cs') with
      | some kr =>
        rw [replV_cons_pos v kr.1 c cs' kr.2 (by rw [hm])]
        obtain ⟨ph, pt, hpad⟩ := List.exists_cons_of_ne_nil (padVer_ne_nil v kr.1)
        have hinert : inertChar ph := padVer_inert v kr.1 ph (by rw [hpad]; simp)
        have hfalse : lowEq t0 ph = false :=
          tokTail_lowEq_inert t0 ph (htl t0 (by simp)) hinert
        rw [hpad, List.cons_append, matchTokCI, if_neg (by simp [hfalse])]
      | none =>
        rw [replV_cons_neg v c cs' hm]
        cases hle : lowEq t0 c with
        | false => rw [matchTokCI, if_neg (by simp [hle])]
        | true =>
          rw [matchTokCI, if_pos (by simp [hle])] at h ⊢
          exact ih tl' (fun ch hch => htl ch (by simp [hch])) h

/-- A failing token-tail match keeps failing after a literal-token pass
rewrites the text: the pass only inserts digits and dashes, which never
compare equal to a token-tail character. -/
theorem matchTail_none_replTok (tb0 : Char) (tbs rep : List Char)
    (hrepne : rep ≠ []) (hrep : ∀ r ∈ rep, inertChar r) :
    ∀ cs tl, (∀ ch ∈ tl, tokTailChar ch) → matchTokCI tl cs = none →
      matchTokCI tl (replTok (tb0 :: tbs) rep cs) = none := by
  have hde : hasDollarEscape rep = false :=
    no_dollar_no_escape rep (fun c hc => inert_ne_dollar c (hrep c hc))
  intro cs
  induction cs with
  | nil => intro tl _ h; exact h
  | cons c cs' ih =>
    intro tl htl h
    cases tl with
    | nil => simp [matchTokCI] at h
    | cons t0 tl' =>
      cases hm : matchTokCI (tb0 :: tbs) (c :: cs') with
      | some rest =>
        rw [replTok_cons_pos tb0 tbs rep hde c cs' rest hm]
        obtain ⟨rh, rt, hr⟩ := List.exists_cons_of_ne_nil hrepne
        have hfalse : lowEq t0 rh = false :=
          tokTail_lowEq_inert t0 rh (htl t0 (by simp)) (hrep rh (by rw [hr]; simp))
        rw [hr, List.cons_append, matchTokCI, if_neg (by simp [hfalse])]
      | none =>
        rw [replTok_cons_neg (tb0 :: tbs) rep hde c cs' hm]
        cases hle : lowEq t0 c with
        | false => rw [matchTokCI, if_neg (by simp [hle])]
        | true =>
          rw [matchTokCI, if_pos (by simp [hle])] at h ⊢
          exact ih tl' (fun ch hch => htl ch (by simp [hch])) h

/-- Lifting a failing whole-token match through rewrites of the text
after the head character. -/
theorem matchTok_none_lift (t0 : Char) (tl : List Char) (c : Char)
    (cs X : List Char) (h : matchTokCI (t0 :: tl) (c :: cs) = none)
    (hX : matchTokCI tl cs = none → matchTokCI tl X = none) :
    matchTokCI (t0 :: tl) (c :: X) = none := by
  cases hle : lowEq t0 c with
  | false => rw [matchTokCI, if_neg (by simp [hle])]
  | true =>
    rw [matchTokCI, if_pos (by simp [hle])] at h ⊢
    exact hX h

/-! ## The four-pass renderer agrees with the one-pass claim-side
renderer -/

theorem parse_def (p : List Char) (v : Nat) (name : List Char) (clk : Clock) :
    parseSuffixPattern p v name clk
      = replTok SEQtok name (replTok TIMEtok (timeStr clk)
          (replTok DATEtok (dateStr clk) (replV v p))) := rfl

theorem dateTail_tokTail : ∀ ch ∈ DATEtokTail, tokTailChar ch := by decide

theorem timeTail_tokTail : ∀ ch ∈ TIMEtokTail, tokTailChar ch := by decide

theorem seqTail_tokTail : ∀ ch ∈ SEQtokTail, tokTailChar ch := by decide

/-- The three literal-token passes, with escape-free templates, copy a
block that opens no token. -/
theorem chain_pass (name d t a Y : List Char)
    (hded : hasDollarEscape d = false) (hdet : hasDollarEscape t = false)
    (hden : hasDollarEscape name = false)
    (ha : ∀ c ∈ a, lowChar c ≠ '\x7b') :
    replTok SEQtok name (replTok TIMEtok t (replTok DATEtok d (a ++ Y)))
      = a ++ replTok SEQtok name (replTok TIMEtok t (replTok DATEtok d Y)) := by
  rw [show DATEtok = '\x7b' :: DATEtokTail from rfl,
      show TIMEtok = '\x7b' :: TIMEtokTail from rfl,
      show SEQtok = '\x7b' :: SEQtokTail from rfl,
      replTok_pass _ _ _ (by decide) hded a Y ha,
      replTok_pass _ _ _ (by decide) hdet a _ ha,
      replTok_pass _ _ _ (by decide) hden a _ ha]

/-- The DATE pass, with an escape-free template, copies a block that
opens no token. -/
theorem replTok_pass_DATE (d : List Char) (hde : hasDollarEscape d = false)
    (a Y : List Char) (ha : ∀ c ∈ a, lowChar c ≠ '\x7b') :
    replTok DATEtok d (a ++ Y) = a ++ replTok DATEtok d Y :=
  replTok_pass '\x7b' DATEtokTail d (by decide) hde a Y ha

/-- The TIME pass, with an escape-free template, copies a block that
opens no token. -/
theorem replTok_pass_TIME (t : List Char) (hde : hasDollarEscape t = false)
    (a Y : List Char) (ha : ∀ c ∈ a, lowChar c ≠ '\x7b') :
    replTok TIMEtok t (a ++ Y) = a ++ replTok TIMEtok t Y :=
  replTok_pass '\x7b' TIMEtokTail t (by decide) hde a Y ha

/-- The SEQ pass, with an escape-free template, copies a block that
opens no token. -/
theorem replTok_pass_SEQ (s : List Char) (hde : hasDollarEscape s = false)
    (a Y : List Char) (ha : ∀ c ∈ a, lowChar c ≠ '\x7b') :
    replTok SEQtok s (a ++ Y) = a ++ replTok SEQtok s Y :=
  replTok_pass '\x7b' SEQtokTail s (by decide) hde a Y ha

/-- The DATE pass, with an escape-free template, replaces a DATE token
sitting at the head. -/
theorem replTok_cons_pos_DATE (d : List Char) (hde : hasDollarEscape d = false)
    (c : Char) (cs rest : List Char)
    (h : matchTokCI DATEtok (c :: cs) = some rest) :
    replTok DATEtok d (c :: cs) = d ++ replTok DATEtok d rest :=
  replTok_cons_pos '\x7b' DATEtokTail d hde c cs rest h

/-- The TIME pass, with an escape-free template, replaces a TIME token
sitting at the head. -/
theorem replTok_cons_pos_TIME (t : List Char) (hde : hasDollarEscape t = false)
    (c : Char) (cs rest : List Char)
    (h : matchTokCI TIMEtok (c :: cs) = some rest) :
    replTok TIMEtok t (c :: cs) = t ++ replTok TIMEtok t rest :=
  replTok_cons_pos '\x7b' TIMEtokTail t hde c cs rest h

/-- The SEQ pass, with an escape-free template, replaces a SEQ token
sitting at the head. -/
theorem replTok_cons_pos_SEQ (s : List Char) (hde : hasDollarEscape s = false)
    (c : Char) (cs rest : List Char)
    (h : matchTokCI SEQtok (c :: cs) = some rest) :
    replTok SEQtok s (c :: cs) = s ++ replTok SEQtok s rest :=
  replTok_cons_pos '\x7b' SEQtokTail s hde c cs rest h

/-- A token whose second character already disagrees, case-insensitively,
with the second input character never matches. -/
theorem matchTok_none_second (t0 t1 : Char) (tl : List Char) (c x : Char)
    (xs : List Char) (hx : lowChar x ≠ lowChar t1) :
    matchTokCI (t0 :: t1 :: tl) (c :: x :: xs) = none := by
  cases hle : lowEq t0 c with
  | false => rw [matchTokCI, if_neg (by simp [hle])]
  | true =>
    rw [matchTokCI, if_pos (by simp [hle]), matchTokCI,
      if_neg (by simp only [lowEq, decide_eq_true_eq]; intro hcontra; exact hx hcontra.symm)]

/-- parseSuffixPattern coincides with the claim-side single-pass
renderer on every pattern, version, name and clock (length-bounded
recursion). -/
theorem parse_eq_claim_aux (v : Nat) (name : List Char) (clk : Clock)
    (hname : hasDollarEscape name = false) :
    ∀ n p, p.length ≤ n →
      parseSuffixPattern p v name clk
        = claimRender v name (dateStr clk) (timeStr clk) p := by
  have hdeD : hasDollarEscape (dateStr clk) = false := dateStr_no_escape clk
  have hdeT : hasDollarEscape (timeStr clk) = false := timeStr_no_escape clk
  have hdno : ∀ x ∈ dateStr clk, lowChar x ≠ '\x7b' :=
    fun x hx => inert_ne_lbrace x (dateStr_inert clk x hx)
  have htno : ∀ x ∈ timeStr clk, lowChar x ≠ '\x7b' :=
    fun x hx => inert_ne_lbrace x (timeStr_inert clk x hx)
  intro n
  induction n with
  | zero =>
    intro p hp
    have hnil : p = [] := List.eq_nil_of_length_eq_zero (Nat.le_zero.mp hp)
    subst hnil
    rfl
  | succ n ih =>
    intro p hp
    cases p with
    | nil => rfl
    | cons c cs =>
      have hcsn : cs.length ≤ n := by
        simp at hp
        omega
      cases hv : matchVTok (c :: cs) with
      | some kr =>
        obtain ⟨k, rest⟩ := kr
        obtain ⟨vs, h1, h2, hk, _⟩ := matchVTok_some (c :: cs) k rest hv
        have hlen : rest.length ≤ n := by
          have hl := congrArg List.length h1
          simp at hl
          omega
        rw [parse_def, replV_cons_pos v k c cs rest hv,
            chain_pass name _ _ (padVer v k) _ hdeD hdeT hname
              (fun x hx => inert_ne_lbrace x (padVer_inert v k x hx)),
            ← parse_def, ih rest hlen,
            claimRender_cons_v v k name _ _ c cs rest hv]
      | none =>
        cases hd : matchTokCI DATEtok (c :: cs) with
        | some rest =>
          -- a DATE token sits at the head of the pattern
          obtain ⟨a, ha, hall0⟩ := matchTokCI_some DATEtok (c :: cs) rest hd
          cases a with
          | nil =>
            have := List.Forall₂.length_eq hall0
            simp [DATEtok, DATEtokTail] at this
          | cons a0 a' =>
            have hc0 : a0 = c := by
              have := congrArg (List.headD · ' ') ha
              simpa using this.symm
            subst hc0
            have hcs : cs = a' ++ rest := by
              have := congrArg List.tail ha
              simpa using this
            subst hcs
            have htail : List.Forall₂ (fun t c => lowEq t c = true) DATEtokTail a' := by
              have hall := hall0
              rw [show DATEtok = '\x7b' :: DATEtokTail from rfl] at hall
              cases hall with
              | cons hhead htail => exact htail
            have ha' : ∀ x ∈ a', lowChar x ≠ '\x7b' :=
              forall2_tokTail_no_lbrace DATEtokTail a' htail dateTail_tokTail
            have hlen : rest.length ≤ n := by
              simp at hcsn
              omega
            have hrv : replV v (a0 :: (a' ++ rest)) = a0 :: (a' ++ replV v rest) := by
              rw [replV_cons_neg v a0 (a' ++ rest) hv, replV_pass v a' rest ha']
            have hm : matchTokCI DATEtok (a0 :: (a' ++ replV v rest)) = some (replV v rest) := by
              have := matchTokCI_transfer hall0 (replV v rest)
              simpa using this
            rw [parse_def, hrv,
                replTok_cons_pos_DATE (dateStr clk) hdeD a0 (a' ++ replV v rest)
                  (replV v rest) hm,
                replTok_pass_TIME (timeStr clk) hdeT (dateStr clk) _ hdno,
                replTok_pass_SEQ name hname (dateStr clk) _ hdno,
                ← parse_def, ih rest hlen,
                claimRender_cons_date v name _ _ a0 (a' ++ rest) rest hv hd]
        | none =>
          cases ht : matchTokCI TIMEtok (c :: cs) with
          | some rest =>
            -- a TIME token sits at the head of the pattern
            obtain ⟨a, ha, hall0⟩ := matchTokCI_some TIMEtok (c :: cs) rest ht
            cases a with
            | nil =>
              have := List.Forall₂.length_eq hall0
              simp [TIMEtok, TIMEtokTail] at this
            | cons a0 a' =>
              have hc0 : a0 = c := by
                have := congrArg (List.headD · ' ') ha
                simpa using this.symm
              subst hc0
              have hcs : cs = a' ++ rest := by
                have := congrArg List.tail ha
                simpa using this
              subst hcs
              have htail : List.Forall₂ (fun t c => lowEq t c = true) TIMEtokTail a' := by
                have hall := hall0
                rw [show TIMEtok = '\x7b' :: TIMEtokTail from rfl] at hall
                cases hall with
                | cons hhead htail => exact htail
              have ha' : ∀ x ∈ a', lowChar x ≠ '\x7b' :=
                forall2_tokTail_no_lbrace TIMEtokTail a' htail timeTail_tokTail
              have hlen : rest.length ≤ n := by
                simp at hcsn
                omega
              have halen : (a0 :: a').length = 6 := by
                rw [← List.Forall₂.length_eq hall0]
                rfl
              have hrv : replV v (a0 :: (a' ++ rest)) = a0 :: (a' ++ replV v rest) := by
                rw [replV_cons_neg v a0 (a' ++ rest) hv, replV_pass v a' rest ha']
              have hdn : matchTokCI DATEtok (a0 :: (a' ++ replV v rest)) = none := by
                have := matchTokCI_fail_transfer DATEtok (a0 :: a') rest (replV v rest)
                  (by simpa using hd) (by rw [halen]; rfl)
                simpa using this
              have hDpass : replTok DATEtok (dateStr clk) (a0 :: (a' ++ replV v rest))
                  = a0 :: (a' ++ replTok DATEtok (dateStr clk) (replV v rest)) := by
                rw [replTok_cons_neg DATEtok (dateStr clk) hdeD a0 (a' ++ replV v rest) hdn,
                    replTok_pass_DATE (dateStr clk) hdeD a' (replV v rest) ha']
              have hm : matchTokCI TIMEtok
                  (a0 :: (a' ++ replTok DATEtok (dateStr clk) (replV v rest)))
                  = some (replTok DATEtok (dateStr clk) (replV v rest)) := by
                have := matchTokCI_transfer hall0 (replTok DATEtok (dateStr clk) (replV v rest))
                simpa using this
              rw [parse_def, hrv, hDpass,
                  replTok_cons_pos_TIME (timeStr clk) hdeT a0 _ _ hm,
                  replTok_pass_SEQ name hname (timeStr clk) _ htno,
                  ← parse_def, ih rest hlen,
                  claimRender_cons_time v name _ _ a0 (a' ++ rest) rest hv hd ht]
          | none =>
            cases hs : matchTokCI SEQtok (c :: cs) with
            | some rest =>
              -- a SEQ token sits at the head of the pattern
              obtain ⟨a, ha, hall0⟩ := matchTokCI_some SEQtok (c :: cs) rest hs
              cases a with
              | nil =>
                have := List.Forall₂.length_eq hall0
                simp [SEQtok, SEQtokTail] at this
              | cons a0 a' =>
                have hc0 : a0 = c := by
                  have := congrArg (List.headD · ' ') ha
                  simpa using this.symm
                subst hc0
                have hcs : cs = a' ++ rest := by
                  have := congrArg List.tail ha
                  simpa using this
                subst hcs
                have htail : List.Forall₂ (fun t c => lowEq t c = true) SEQtokTail a' := by
                  have hall := hall0
                  rw [show SEQtok = '\x7b' :: SEQtokTail from rfl] at hall
                  cases hall with
                  | cons hhead htail => exact htail
                have ha' : ∀ x ∈ a', lowChar x ≠ '\x7b' :=
                  forall2_tokTail_no_lbrace SEQtokTail a' htail seqTail_tokTail
                have hlen : rest.length ≤ n := by
                  simp at hcsn
                  omega
                -- the character after the brace is an s, so neither the
                -- DATE nor the TIME token can open at this position
                cases a' with
                | nil =>
                  have := List.Forall₂.length_eq htail
                  simp [SEQtokTail] at this
                | cons x1 a'' =>
                  have hx1 : lowChar x1 = lowChar 's' := by
                    cases htail with
                    | cons h1 _ =>
                      have h1' := h1
                      simp only [lowEq, decide_eq_true_eq] at h1'
                      exact h1'.symm
                  have hdn : ∀ X : List Char,
                      matchTokCI DATEtok (a0 :: (x1 :: X)) = none := fun X =>
                    matchTok_none_second '\x7b' 'd' ('a' :: 't' :: 'e' :: '\x7d' :: [])
                      a0 x1 X (by rw [hx1]; decide)
                  have htn : ∀ X : List Char,
                      matchTokCI TIMEtok (a0 :: (x1 :: X)) = none := fun X =>
                    matchTok_none_second '\x7b' 't' ('i' :: 'm' :: 'e' :: '\x7d' :: [])
                      a0 x1 X (by rw [hx1]; decide)
                  have hrv : replV v (a0 :: ((x1 :: a'') ++ rest))
                      = a0 :: ((x1 :: a'') ++ replV v rest) := by
                    rw [replV_cons_neg v a0 ((x1 :: a'') ++ rest) hv,
                        replV_pass v (x1 :: a'') rest ha']
                  have hDpass : replTok DATEtok (dateStr clk)
                        (a0 :: ((x1 :: a'') ++ replV v rest))
                      = a0 :: ((x1 :: a'') ++ replTok DATEtok (dateStr clk) (replV v rest)) := by
                    rw [replTok_cons_neg DATEtok (dateStr clk) hdeD a0 _
                          (by rw [List.cons_append]; exact hdn (a'' ++ replV v rest)),
                        replTok_pass_DATE (dateStr clk) hdeD (x1 :: a'') (replV v rest) ha']
                  have hTpass : replTok TIMEtok (timeStr clk)
                        (a0 :: ((x1 :: a'') ++ replTok DATEtok (dateStr clk) (replV v rest)))
                      = a0 :: ((x1 :: a'')
                          ++ replTok TIMEtok (timeStr clk)
                              (replTok DATEtok (dateStr clk) (replV v rest))) := by
                    rw [replTok_cons_neg TIMEtok (timeStr clk) hdeT a0 _
                          (by rw [List.cons_append]
                              exact htn (a'' ++ replTok DATEtok (dateStr clk) (replV v rest))),
                        replTok_pass_TIME (timeStr clk) hdeT (x1 :: a'') _ ha']
                  have hm : matchTokCI SEQtok
                      (a0 :: ((x1 :: a'')
                        ++ replTok TIMEtok (timeStr clk)
                            (replTok DATEtok (dateStr clk) (replV v rest))))
                      = some (replTok TIMEtok (timeStr clk)
                          (replTok DATEtok (dateStr clk) (replV v rest))) := by
                    have := matchTokCI_transfer hall0
                      (replTok TIMEtok (timeStr clk)
                        (replTok DATEtok (dateStr clk) (replV v rest)))
                    simpa using this
                  rw [parse_def, hrv, hDpass, hTpass,
                      replTok_cons_pos_SEQ name hname a0 _ _ hm,
                      ← parse_def, ih rest hlen,
                      claimRender_cons_seq v name _ _ a0 ((x1 :: a'') ++ rest) rest hv hd ht hs]
            | none =>
              -- no token opens at this position: the character is copied
              have hdn2 : matchTokCI DATEtok (c :: replV v cs) = none :=
                matchTok_none_lift '\x7b' DATEtokTail c cs (replV v cs) hd
                  (fun h0 => matchTail_none_replV v cs DATEtokTail dateTail_tokTail h0)
              have htn2 : matchTokCI TIMEtok
                  (c :: replTok DATEtok (dateStr clk) (replV v cs)) = none :=
                matchTok_none_lift '\x7b' TIMEtokTail c cs _ ht
                  (fun h0 =>
                    matchTail_none_replTok '\x7b' DATEtokTail (dateStr clk)
                      (dateStr_ne_nil clk) (dateStr_inert clk) (replV v cs) TIMEtokTail
                      timeTail_tokTail
                      (matchTail_none_replV v cs TIMEtokTail timeTail_tokTail h0))
              have hsn2 : matchTokCI SEQtok
                  (c :: replTok TIMEtok (timeStr clk)
                    (replTok DATEtok (dateStr clk) (replV v cs))) = none :=
                matchTok_none_lift '\x7b' SEQtokTail c cs _ hs
                  (fun h0 =>
                    matchTail_none_replTok '\x7b' TIMEtokTail (timeStr clk)
                      (timeStr_ne_nil clk) (timeStr_inert clk) _ SEQtokTail seqTail_tokTail
                      (matchTail_none_replTok '\x7b' DATEtokTail (dateStr clk)
                        (dateStr_ne_nil clk) (dateStr_inert clk) (replV v cs) SEQtokTail
                        seqTail_tokTail
                        (matchTail_none_replV v cs SEQtokTail seqTail_tokTail h0)))
              rw [parse_def, replV_cons_neg v c cs hv,
                  replTok_cons_neg DATEtok (dateStr clk) hdeD c _ hdn2,
                  replTok_cons_neg TIMEtok (timeStr clk) hdeT c _ htn2,
                  replTok_cons_neg SEQtok name hname c _ hsn2,
                  ← parse_def, ih cs hcsn,
                  claimRender_cons_none v name _ _ c cs hv hd ht hs]

/-- parseSuffixPattern coincides with the claim-side single-pass
renderer. -/
theorem parse_eq_claim (v : Nat) (name : List Char) (clk : Clock)
    (hname : hasDollarEscape name = false) (p : List Char) :
    parseSuffixPattern p v name clk
      = claimRender v name (dateStr clk) (timeStr clk) p :=
  parse_eq_claim_aux v name clk hname p.length p (Nat.le_refl _)

/-- C4 counterexample.  The claim says the SEQ token is replaced by the
sequence name for every name, but the program hands the name to
String.replace as a replacement string, where JS dollar escapes are
interpreted: for the name consisting of a dollar sign and an ampersand,
rendering the pattern of a brace SEQ token yields that very token back
(the escape expands to the matched text), not the name. -/
theorem claim_C4_counterexample :
    parseSuffixPattern "\x7bSEQ\x7d".toList 1 "$&".toList ⟨2026, 0, 1, 0, 0⟩
      = "\x7bSEQ\x7d".toList
    ∧ "\x7bSEQ\x7d".toList ≠ "$&".toList :=
  ⟨rfl, by decide⟩

/-- C4 amended.  For every pattern, version and clock, and every sequence
name free of JS replacement-string dollar escapes (no occurrence of a
dollar sign followed by a dollar sign, ampersand, backquote or quote),
the token renderer acts as the single left-to-right pass that replaces
every brace token of one or more V or v characters by the version
zero-padded to the count of V characters in that token (each occurrence
evaluated independently against the same version), replaces the DATE,
TIME and SEQ tokens case-insensitively by the date string, the time
string and the sequence name, and leaves unrecognized tokens verbatim.
The DATE and TIME replacements hold for arbitrary names since the date
and time strings are digits and dashes.  In particular the pattern
SEQ-then-V-V renders version 3 of Edit as Edit_V03, a single V token
renders version 100 as 100 in full (padding never truncates: the padding
is zeros prefixed to the full decimal expansion), mixed-case token
spellings are recognized, and an unknown token FOO is copied
unchanged. -/
theorem claim_C4_amended :
    (∀ (p : List Char) (v : Nat) (name : List Char) (clk : Clock),
        hasDollarEscape name = false →
        parseSuffixPattern p v name clk
          = claimRender v name (dateStr clk) (timeStr clk) p)
    ∧ (∀ clk : Clock,
        parseSuffixPattern "\x7bSEQ\x7d_V\x7bVV\x7d".toList 3 "Edit".toList clk
          = "Edit_V03".toList)
    ∧ (∀ clk : Clock,
        parseSuffixPattern "\x7bV\x7d".toList 100 "X".toList clk = "100".toList)
    ∧ (∀ (clk : Clock) (v : Nat) (name : List Char),
        parseSuffixPattern "\x7bDATE\x7d".toList v name clk = dateStr clk)
    ∧ (∀ (clk : Clock) (v : Nat) (name : List Char),
        parseSuffixPattern "\x7btIme\x7d".toList v name clk = timeStr clk)
    ∧ (∀ (clk : Clock) (v : Nat) (name : List Char),
        hasDollarEscape name = false →
        parseSuffixPattern "\x7bsEq\x7d".toList v name clk = name)
    ∧ (∀ (clk : Clock) (v : Nat) (name : List Char),
        parseSuffixPattern "\x7bFOO\x7d".toList v name clk = "\x7bFOO\x7d".toList)
    ∧ (∀ v k : Nat, ∃ zeros, padVer v k = zeros ++ natDigits v ∧ ∀ c ∈ zeros, c = '0') := by
  refine ⟨fun p v name clk hname => parse_eq_claim v name clk hname p,
    fun clk => rfl, fun clk => rfl, ?_, ?_, ?_, ?_, ?_⟩
  · intro clk v name
    have hD : replTok DATEtok (dateStr clk)
        ('\x7b' :: 'D' :: 'A' :: 'T' :: 'E' :: '\x7d' :: [])
        = dateStr clk ++ [] :=
      replTok_cons_pos_DATE (dateStr clk) (dateStr_no_escape clk) '\x7b'
        ('D' :: 'A' :: 'T' :: 'E' :: '\x7d' :: []) [] (by decide)
    have hT : replTok TIMEtok (timeStr clk) (dateStr clk) = dateStr clk :=
      replTok_inert_fix '\x7b' TIMEtokTail (timeStr clk) (dateStr clk) (by decide)
        (fun x hx => inert_ne_lbrace x (dateStr_inert clk x hx))
    have hS : replTok SEQtok name (dateStr clk) = dateStr clk :=
      replTok_inert_fix '\x7b' SEQtokTail name (dateStr clk) (by decide)
        (fun x hx => inert_ne_lbrace x (dateStr_inert clk x hx))
    rw [parse_def,
        show replV v "\x7bDATE\x7d".toList
          = '\x7b' :: 'D' :: 'A' :: 'T' :: 'E' :: '\x7d' :: [] from rfl,
        hD, List.append_nil, hT, hS]
  · intro clk v name
    have hT : replTok TIMEtok (timeStr clk)
        ('\x7b' :: 't' :: 'I' :: 'm' :: 'e' :: '\x7d' :: [])
        = timeStr clk ++ [] :=
      replTok_cons_pos_TIME (timeStr clk) (timeStr_no_escape clk) '\x7b'
        ('t' :: 'I' :: 'm' :: 'e' :: '\x7d' :: []) [] (by decide)
    have hS : replTok SEQtok name (timeStr clk) = timeStr clk :=
      replTok_inert_fix '\x7b' SEQtokTail name (timeStr clk) (by decide)
        (fun x hx => inert_ne_lbrace x (timeStr_inert clk x hx))
    rw [parse_def,
        show replV v "\x7btIme\x7d".toList
          = '\x7b' :: 't' :: 'I' :: 'm' :: 'e' :: '\x7d' :: [] from rfl,
        show replTok DATEtok (dateStr clk)
            ('\x7b' :: 't' :: 'I' :: 'm' :: 'e' :: '\x7d' :: [])
          = '\x7b' :: 't' :: 'I' :: 'm' :: 'e' :: '\x7d' :: [] from rfl,
        hT, List.append_nil, hS]
  · intro clk v name hname
    rw [parse_def,
        show replV v "\x7bsEq\x7d".toList
          = '\x7b' :: 's' :: 'E' :: 'q' :: '\x7d' :: [] from rfl,
        show replTok DATEtok (dateStr clk)
            ('\x7b' :: 's' :: 'E' :: 'q' :: '\x7d' :: [])
          = '\x7b' :: 's' :: 'E' :: 'q' :: '\x7d' :: [] from rfl,
        show replTok TIMEtok (timeStr clk)
            ('\x7b' :: 's' :: 'E' :: 'q' :: '\x7d' :: [])
          = '\x7b' :: 's' :: 'E' :: 'q' :: '\x7d' :: [] from rfl,
        replTok_cons_pos_SEQ name hname '\x7b'
          ('s' :: 'E' :: 'q' :: '\x7d' :: []) [] (by decide),
        show replTok SEQtok name ([] : List Char) = [] from rfl,
        List.append_nil]
  · intro clk v name
    rfl
  · intro v k
    exact ⟨List.replicate (k - (natDigits v).length) '0', rfl,
      fun c hc => List.eq_of_mem_replicate hc⟩

/-- C4 amended, instantiated: the name Edit is free of dollar escapes and
the general equivalence evaluates on it at a concrete pattern, version
and clock. -/
theorem claim_C4_amended_witness :
    hasDollarEscape "Edit".toList = false
    ∧ parseSuffixPattern "\x7bSEQ\x7d_\x7bDATE\x7d".toList 2 "Edit".toList
          ⟨2026, 0, 1, 0, 0⟩
        = claimRender 2 "Edit".toList (dateStr ⟨2026, 0, 1, 0, 0⟩)
            (timeStr ⟨2026, 0, 1, 0, 0⟩) "\x7bSEQ\x7d_\x7bDATE\x7d".toList :=
  ⟨by decide,
    claim_C4_amended.1 "\x7bSEQ\x7d_\x7bDATE\x7d".toList 2 "Edit".toList
      ⟨2026, 0, 1, 0, 0⟩ (by decide)⟩

/-! ## Sequence-name sanitizer (client/main.js) -/

/-- The characters the client replaces in sequence names before any
path construction. -/
def badChars : List Char := ['<', '>', ':', '\"', '/', '\\', '|', '?', '*']

/-- cleanName: each occurrence of a reserved character is replaced by an
underscore. -/
def sanitizeName (s : List Char) : List Char :=
  s.map (fun c => if c ∈ badChars then '_' else c)

/-! ## Batch export orchestrator (client/main.js handleBatchExport /
processNextSequence)

Remote calls are chained: each next call is issued inside the previous
call's callback, so a batch run is the sequential fold below.  The
environment supplies, per item, the parsed outcome of each callback
(none models a JSON.parse failure or a missing field that makes the
callback body throw). -/

/-- The platform-dependent built-in preset paths. -/
structure Defaults where
  video : List Char
  audio : List Char

/-- The persisted settings read by the export actions. -/
structure Settings where
  videoPreset : List Char
  audioPreset : List Char
  downloadEnabled : Bool
  suffixPattern : List Char
  exportFolder : List Char
  folderDepth : Nat
  fixedFolder : List Char

/-- The default naming pattern (SEQ underscore V token). -/
def defaultSuffixPattern : List Char := "\x7bSEQ\x7d_V\x7bV\x7d".toList

/-- The stored pattern, or the default when the stored value is empty
(the source's logical-or on the stored string). -/
def namingPatternOf (st : Settings) : List Char :=
  if st.suffixPattern = [] then defaultSuffixPattern else st.suffixPattern

/-- Preset selection: video preset when the item has visible video,
audio preset otherwise, each falling back to the built-in default when
the stored value is empty. -/
def presetFor (st : Settings) (dfl : Defaults) (hasVideo : Bool) : List Char :=
  if hasVideo then
    (if st.videoPreset = [] then dfl.video else st.videoPreset)
  else
    (if st.audioPreset = [] then dfl.audio else st.audioPreset)

/-- Parsed outcomes of the remote calls that one batch item may make. -/
structure ItemEnv where
  videoRes : Option Bool
  sysInfoRes : Option (List Char)
  exportsPathRes : Option (Option (List Char))
  verRes : Option (Bool × Nat)
  submitRes : Option Bool

/-- One selected sequence (name as shown in the project panel). -/
structure Item where
  name : List Char

/-- The remote calls a batch item can issue, in pipeline order. -/
inductive CallKind
  | videoCheck
  | sysInfo
  | exportsPath
  | versionCall
  | submit
  deriving DecidableEq, Repr

/-- Events of a batch run: a remote call for an item, or the one
queue-flushing start-batch call. -/
inductive BatchEv
  | call (idx : Nat) (k : CallKind)
  | startBatch
  deriving DecidableEq, Repr

/-- The submission arguments of one queued export. -/
structure SubmitInfo where
  seqName : List Char
  outputPath : List Char
  presetPath : List Char
  deriving DecidableEq, Repr

/-- Outcome of one batch item's pipeline. -/
structure ItemResult where
  calls : List CallKind
  ok : Bool
  folderUsed : Option (List Char)
  submitted : Option SubmitInfo
  deriving DecidableEq, Repr

/-- Separator choice of queueSequenceExport: a backslash when the folder
path contains one, a slash otherwise. -/
def sepFor (folderPath : List Char) : Char :=
  if '\\' ∈ folderPath then '\\' else '/'

/-- One item of processNextSequence: the video check, then the output
folder (system-info call when the download flag is on, otherwise the
project-exports call), then queueSequenceExport (clean name, naming
pattern, version call, rendered filename, submission).  Every failed
step ends the item with ok false; a version reply with success false
falls back to version 1 and continues. -/
def runItem (st : Settings) (dfl : Defaults) (clk : Clock) (it : Item)
    (env : ItemEnv) : ItemResult :=
  match env.videoRes with
  | none => ⟨[.videoCheck], false, none, none⟩
  | some hasVideo =>
    let presetPath := presetFor st dfl hasVideo
    let pathCall : CallKind := if st.downloadEnabled then .sysInfo else .exportsPath
    let folderRes : Option (List Char) :=
      if st.downloadEnabled then env.sysInfoRes
      else
        match env.exportsPathRes with
        | some (some p) => some p
        | _ => none
    match folderRes with
    | none => ⟨[.videoCheck, pathCall], false, none, none⟩
    | some folderPath =>
      let cleanName := sanitizeName it.name
      match env.verRes with
      | none => ⟨[.videoCheck, pathCall, .versionCall], false, some folderPath, none⟩
      | some (vsucc, ver) =>
        let version := if vsucc then ver else 1
        let fileName := parseSuffixPattern (namingPatternOf st) version cleanName clk
        let outputPath := folderPath ++ sepFor folderPath :: fileName
        match env.submitRes with
        | none =>
          ⟨[.videoCheck, pathCall, .versionCall, .submit], false, some folderPath,
            some ⟨it.name, outputPath, presetPath⟩⟩
        | some ok =>
          ⟨[.videoCheck, pathCall, .versionCall, .submit], ok, some folderPath,
            some ⟨it.name, outputPath, presetPath⟩⟩

/-- Whether an item's pipeline ends in a queued submission. -/
def itemOk (st : Settings) (dfl : Defaults) (clk : Clock)
    (p : Item × ItemEnv) : Bool :=
  (runItem st dfl clk p.1 p.2).ok

/-- Final state of a batch run. -/
structure BatchResult where
  successCount : Nat
  errorCount : Nat
  finalIndex : Nat
  trace : List BatchEv
  deriving DecidableEq, Repr

/-- processNextSequence: one item at a time, in list order; each item
adds one to exactly one of the two counters and advances the index; when
no item remains the single start-batch call is issued. -/
def processNextSequence (st : Settings) (dfl : Defaults) (clk : Clock) :
    Nat → Nat → Nat → List BatchEv → List (Item × ItemEnv) → BatchResult
  | idx, succ, err, tr, [] => ⟨succ, err, idx, tr ++ [.startBatch]⟩
  | idx, succ, err, tr, p :: rest =>
    let r := runItem st dfl clk p.1 p.2
    processNextSequence st dfl clk (idx + 1)
      (succ + (if r.ok then 1 else 0)) (err + (if r.ok then 0 else 1))
      (tr ++ r.calls.map (BatchEv.call idx)) rest

/-- handleBatchExport: a batch run starts at index zero with both
counters zero and an empty trace. -/
def handleBatchExport (st : Settings) (dfl : Defaults) (clk : Clock)
    (items : List (Item × ItemEnv)) : BatchResult :=
  processNextSequence st dfl clk 0 0 0 [] items

/-- The per-item call blocks of a batch run, in list order with
consecutive indices. -/
def batchTrace (st : Settings) (dfl : Defaults) (clk : Clock) :
    Nat → List (Item × ItemEnv) → List BatchEv
  | _, [] => []
  | idx, p :: rest =>
    (runItem st dfl clk p.1 p.2).calls.map (BatchEv.call idx)
      ++ batchTrace st dfl clk (idx + 1) rest

/-- Closed form of a batch run: the counters count the items whose
pipeline succeeded and failed, the index advances by the item count, and
the trace is the ordered per-item blocks followed by the one start-batch
event. -/
theorem processNextSequence_eq (st : Settings) (dfl : Defaults) (clk : Clock) :
    ∀ (ps : List (Item × ItemEnv)) (idx succ err : Nat) (tr : List BatchEv),
      processNextSequence st dfl clk idx succ err tr ps
        = ⟨succ + ps.countP (itemOk st dfl clk),
           err + ps.countP (fun p => ! itemOk st dfl clk p),
           idx + ps.length,
           tr ++ batchTrace st dfl clk idx ps ++ [.startBatch]⟩ := by
  intro ps
  induction ps with
  | nil => intro idx succ err tr; simp [processNextSequence, batchTrace]
  | cons p rest ih =>
    intro idx succ err tr
    rw [processNextSequence]
    rw [ih]
    have hcount : (p :: rest).countP (itemOk st dfl clk)
        = (if itemOk st dfl clk p then 1 else 0) + rest.countP (itemOk st dfl clk) := by
      rw [List.countP_cons]
      omega
    have hcount2 : (p :: rest).countP (fun q => ! itemOk st dfl clk q)
        = (if itemOk st dfl clk p then 0 else 1)
            + rest.countP (fun q => ! itemOk st dfl clk q) := by
      rw [List.countP_cons]
      cases h : itemOk st dfl clk p <;> simp [h] <;> omega
    simp only [BatchResult.mk.injEq]
    refine ⟨?_, ?_, ?_, ?_⟩
    · rw [hcount]
      cases h : itemOk st dfl clk p <;> simp [itemOk] at h <;> simp [itemOk, h] <;> omega
    · rw [hcount2]
      cases h : itemOk st dfl clk p <;> simp [itemOk] at h <;> simp [itemOk, h] <;> omega
    · simp
      omega
    · rw [batchTrace]
      simp [itemOk, List.append_assoc]

/-- Every event of the per-item blocks is a call event carrying an item
index between the starting index and the item count. -/
theorem batchTrace_mem (st : Settings) (dfl : Defaults) (clk : Clock) :
    ∀ (ps : List (Item × ItemEnv)) (idx : Nat) (ev : BatchEv),
      ev ∈ batchTrace st dfl clk idx ps →
        ∃ i k, ev = BatchEv.call i k ∧ idx ≤ i ∧ i < idx + ps.length := by
  intro ps
  induction ps with
  | nil => intro idx ev hev; simp [batchTrace] at hev
  | cons p rest ih =>
    intro idx ev hev
    rw [batchTrace] at hev
    rcases List.mem_append.mp hev with hev | hev
    · obtain ⟨k, _, hk⟩ := List.mem_map.mp hev
      exact ⟨idx, k, hk.symm, Nat.le_refl idx, by simp⟩
    · obtain ⟨i, k, hik, hle, hlt⟩ := ih (idx + 1) ev hev
      exact ⟨i, k, hik, by omega, by simp at hlt ⊢; omega⟩

theorem startBatch_not_mem_batchTrace (st : Settings) (dfl : Defaults) (clk : Clock)
    (ps : List (Item × ItemEnv)) (idx : Nat) :
    BatchEv.startBatch ∉ batchTrace st dfl clk idx ps := by
  intro h
  obtain ⟨i, k, hik, _, _⟩ := batchTrace_mem st dfl clk ps idx BatchEv.startBatch h
  exact BatchEv.noConfusion hik

theorem countP_bool_split {α : Type} (p : α → Bool) (l : List α) :
    l.countP p + l.countP (fun a => ! p a) = l.length := by
  induction l with
  | nil => simp
  | cons a l ih =>
    rw [List.countP_cons, List.countP_cons]
    cases h : p a <;> simp [h] <;> omega

/-- C2.  For every batch run the event trace is exactly the per-item
call blocks, one block per item in list order with consecutive indices,
followed by the single start-batch call: item blocks never interleave
(one item in flight at a time), every block event is a call for an item
of the list, the start-batch call occurs exactly once, and it is the
last event of the run — after all items, never before. -/
theorem claim_C2_strict_order (st : Settings) (dfl : Defaults) (clk : Clock)
    (items : List (Item × ItemEnv)) :
    ((handleBatchExport st dfl clk items).trace
        = batchTrace st dfl clk 0 items ++ [BatchEv.startBatch])
    ∧ (∀ (idx : Nat) (p : Item × ItemEnv) (rest : List (Item × ItemEnv)),
        batchTrace st dfl clk idx (p :: rest)
          = ((runItem st dfl clk p.1 p.2).calls.map (BatchEv.call idx))
              ++ batchTrace st dfl clk (idx + 1) rest)
    ∧ (∀ ev ∈ batchTrace st dfl clk 0 items,
        ∃ i k, ev = BatchEv.call i k ∧ i < items.length)
    ∧ ((handleBatchExport st dfl clk items).trace.count BatchEv.startBatch = 1)
    ∧ ((handleBatchExport st dfl clk items).trace.getLast?
        = some BatchEv.startBatch) := by
  have htr : (handleBatchExport st dfl clk items).trace
      = batchTrace st dfl clk 0 items ++ [BatchEv.startBatch] := by
    rw [handleBatchExport, processNextSequence_eq]
    simp
  refine ⟨htr, fun idx p rest => rfl, ?_, ?_, ?_⟩
  · intro ev hev
    obtain ⟨i, k, hik, _, hlt⟩ := batchTrace_mem st dfl clk items 0 ev hev
    exact ⟨i, k, hik, by simpa using hlt⟩
  · rw [htr, List.count_append]
    rw [List.count_eq_zero.mpr (startBatch_not_mem_batchTrace st dfl clk items 0)]
    rfl
  · rw [htr, List.getLast?_concat]

/-- C9.  In every batch run each item increments exactly one of the two
counters exactly once: at the moment of the finalizing start-batch call,
successCount plus errorCount equals the item count and the index has
reached the item count. -/
theorem claim_C9_counter_invariant (st : Settings) (dfl : Defaults) (clk : Clock)
    (items : List (Item × ItemEnv)) :
    ((handleBatchExport st dfl clk items).successCount
        + (handleBatchExport st dfl clk items).errorCount = items.length)
    ∧ ((handleBatchExport st dfl clk items).finalIndex = items.length) := by
  rw [handleBatchExport, processNextSequence_eq]
  constructor
  · simpa using countP_bool_split (itemOk st dfl clk) items
  · simp

/-! ## Concrete fixtures for the batch-run claims -/

/-- Settings with project-relative export, empty pattern (default), and
no fixed folder. -/
def testSettings : Settings :=
  ⟨"/v.epr".toList, "/a.epr".toList, false, [], "EXPORTS".toList, 0, []⟩

/-- Built-in default presets. -/
def testDefaults : Defaults := ⟨"/dv.epr".toList, "/da.epr".toList⟩

/-- A fixed clock. -/
def testClock : Clock := ⟨2026, 0, 1, 0, 0⟩

/-- An environment in which every remote call of the item succeeds. -/
def goodEnv : ItemEnv :=
  ⟨some true, some "/dl".toList, some (some "/exports".toList), some (true, 1), some true⟩

/-- An environment in which the video-check reply cannot be parsed. -/
def badVideoEnv : ItemEnv := ⟨none, none, none, none, none⟩

/-- C3.  The counters of a batch run are item-wise: successCount counts
exactly the items whose full pipeline succeeded and errorCount counts
exactly the items that failed at some step, over every item of the list
— so one item's failure never aborts the batch; a failure at the
video-check, version or submission step makes the item count as an
error.  In particular a batch of three items whose second item fails its
video check ends with successCount 2 and errorCount 1, all three items
attempted. -/
theorem claim_C3_failure_isolation (st : Settings) (dfl : Defaults) (clk : Clock)
    (items : List (Item × ItemEnv)) :
    ((handleBatchExport st dfl clk items).successCount
        = items.countP (itemOk st dfl clk))
    ∧ ((handleBatchExport st dfl clk items).errorCount
        = items.countP (fun p => ! itemOk st dfl clk p))
    ∧ (∀ (it : Item) (env : ItemEnv), env.videoRes = none →
        itemOk st dfl clk (it, env) = false)
    ∧ (∀ (it : Item) (env : ItemEnv) (hv : Bool), env.videoRes = some hv →
        env.verRes = none → itemOk st dfl clk (it, env) = false)
    ∧ (∀ (it : Item) (env : ItemEnv) (hv : Bool), env.videoRes = some hv →
        env.submitRes = some false → itemOk st dfl clk (it, env) = false)
    ∧ ((handleBatchExport testSettings testDefaults testClock
          [(⟨"A".toList⟩, goodEnv), (⟨"B".toList⟩, badVideoEnv),
           (⟨"C".toList⟩, goodEnv)]).successCount = 2
        ∧ (handleBatchExport testSettings testDefaults testClock
          [(⟨"A".toList⟩, goodEnv), (⟨"B".toList⟩, badVideoEnv),
           (⟨"C".toList⟩, goodEnv)]).errorCount = 1
        ∧ (handleBatchExport testSettings testDefaults testClock
          [(⟨"A".toList⟩, goodEnv), (⟨"B".toList⟩, badVideoEnv),
           (⟨"C".toList⟩, goodEnv)]).finalIndex = 3) := by
  refine ⟨?_, ?_, ?_, ?_, ?_, by decide, by decide, by decide⟩
  · rw [handleBatchExport, processNextSequence_eq]
    simp
  · rw [handleBatchExport, processNextSequence_eq]
    simp
  · intro it env h
    simp [itemOk, runItem, h]
  · intro it env hv h1 h2
    rcases henv : env.exportsPathRes with _ | (_ | p) <;>
      rcases hs : env.sysInfoRes with _ | q <;>
        cases hdl : st.downloadEnabled <;>
          simp [itemOk, runItem, h1, h2, henv, hs, hdl]
  · intro it env hv h1 h2
    rcases henv : env.exportsPathRes with _ | (_ | p) <;>
      rcases hs : env.sysInfoRes with _ | q <;>
        rcases hvr : env.verRes with _ | ⟨vs, ver⟩ <;>
          cases hdl : st.downloadEnabled <;>
            simp [itemOk, runItem, h1, h2, henv, hs, hvr, hdl]

/-- C3 at the concrete three-item batch: the general item-wise counter
equations applied to the batch whose second item fails its video
check. -/
theorem claim_C3_failure_isolation_witness :
    itemOk testSettings testDefaults testClock (⟨"B".toList⟩, badVideoEnv) = false :=
  (claim_C3_failure_isolation testSettings testDefaults testClock []).2.2.1
    ⟨"B".toList⟩ badVideoEnv rfl

/-- C10.  The finalizing start-batch call is unconditional: in every
batch run, even one in which every item failed, the trace contains the
start-batch event exactly once and ends with it.  In particular the
two-item batch whose items both fail their video check ends with
successCount 0, errorCount 2, and a trace of the two video-check calls
followed by the single start-batch call. -/
theorem claim_C10_unconditional_start (st : Settings) (dfl : Defaults) (clk : Clock)
    (items : List (Item × ItemEnv)) :
    ((handleBatchExport st dfl clk items).trace.count BatchEv.startBatch = 1)
    ∧ ((handleBatchExport st dfl clk items).trace.getLast? = some BatchEv.startBatch)
    ∧ (handleBatchExport testSettings testDefaults testClock
        [(⟨"A".toList⟩, badVideoEnv), (⟨"B".toList⟩, badVideoEnv)]
        = ⟨0, 2, 2,
           [BatchEv.call 0 CallKind.videoCheck, BatchEv.call 1 CallKind.videoCheck,
            BatchEv.startBatch]⟩) := by
  have htr : (handleBatchExport st dfl clk items).trace
      = batchTrace st dfl clk 0 items ++ [BatchEv.startBatch] := by
    rw [handleBatchExport, processNextSequence_eq]
    simp
  refine ⟨?_, ?_, by decide⟩
  · rw [htr, List.count_append]
    rw [List.count_eq_zero.mpr (startBatch_not_mem_batchTrace st dfl clk items 0)]
    rfl
  · rw [htr, List.getLast?_concat]

/-! ## Host project-exports path (host/host.jsx
ExportButton_getProjectExportsPath), as called by the batch path -/

/-- The folder containing the project file, as path segments. -/
def ProjectDir := List (List Char)

/-- ExportButton_getProjectExportsPath: the parent folder of the project
file — one level higher when that folder is named PROJET — joined with
the hardcoded folder name EXPORTS.  This host helper takes no folder
name and no depth; the folder-creation side effect is not modelled. -/
def ExportButton_getProjectExportsPath (projectDir : ProjectDir) : List (List Char) :=
  let parentPath :=
    if projectDir.getLast? = some "PROJET".toList then projectDir.dropLast else projectDir
  parentPath ++ ["EXPORTS".toList]

/-- Settings with the download flag on and a non-blank fixed folder. -/
def c5Settings : Settings :=
  ⟨"/v.epr".toList, "/a.epr".toList, true, [], "CUSTOM".toList, 3, "/FIXED".toList⟩

/-- An all-successful environment whose system-info call reports /DL. -/
def c5Env : ItemEnv :=
  ⟨some true, some "/DL".toList, some (some "/proj/EXPORTS".toList), some (true, 1), some true⟩

/-- C5.  Refutation at a concrete batch item: the download flag is on
and the fixed folder is set and non-blank, yet the item resolves its
output folder through the system-info call and uses the Downloads path,
not the fixed folder — the claim that the fixed folder setting is used
in a batch run fails. -/
theorem claim_C5_counterexample :
    (runItem c5Settings testDefaults testClock ⟨"Seq".toList⟩ c5Env).folderUsed
        = some "/DL".toList
    ∧ (runItem c5Settings testDefaults testClock ⟨"Seq".toList⟩ c5Env).calls
        = [CallKind.videoCheck, CallKind.sysInfo, CallKind.versionCall, CallKind.submit]
    ∧ c5Settings.downloadEnabled = true
    ∧ c5Settings.fixedFolder = "/FIXED".toList
    ∧ c5Settings.fixedFolder ≠ []
    ∧ (runItem c5Settings testDefaults testClock ⟨"Seq".toList⟩ c5Env).folderUsed
        ≠ some c5Settings.fixedFolder := by
  refine ⟨by decide, by decide, by decide, by decide, by decide, by decide⟩

/-- C5 (amended).  For every item in a batch run: the fixed folder, the
configured export-folder name and the configured depth are never
consulted (replacing them changes nothing); when the download flag is
enabled the folder is the Downloads path from the system-info call;
otherwise it is the path from the host project-exports call, which joins
the project file's parent folder — one level higher when that parent is
named PROJET — with the hardcoded name EXPORTS.  The configured fixed
folder, folder name and depth are consumed only by the single-item
export path. -/
theorem claim_C5_amended :
    (∀ (st : Settings) (dfl : Defaults) (clk : Clock) (it : Item) (env : ItemEnv)
        (ff ef : List Char) (fd : Nat),
        runItem (Settings.mk st.videoPreset st.audioPreset st.downloadEnabled
            st.suffixPattern ef fd ff) dfl clk it env
          = runItem st dfl clk it env)
    ∧ (∀ (st : Settings) (dfl : Defaults) (clk : Clock) (it : Item) (env : ItemEnv)
        (hv : Bool), st.downloadEnabled = true → env.videoRes = some hv →
        (runItem st dfl clk it env).folderUsed = env.sysInfoRes)
    ∧ (∀ (st : Settings) (dfl : Defaults) (clk : Clock) (it : Item) (env : ItemEnv)
        (hv : Bool) (p : List Char), st.downloadEnabled = false →
        env.videoRes = some hv → env.exportsPathRes = some (some p) →
        (runItem st dfl clk it env).folderUsed = some p)
    ∧ (ExportButton_getProjectExportsPath ["root".toList, "PROJET".toList]
        = ["root".toList, "EXPORTS".toList])
    ∧ (ExportButton_getProjectExportsPath ["root".toList, "sub".toList]
        = ["root".toList, "sub".toList, "EXPORTS".toList])
    ∧ (∀ projectDir : ProjectDir,
        (ExportButton_getProjectExportsPath projectDir).getLast?
          = some "EXPORTS".toList) := by
  refine ⟨?_, ?_, ?_, by decide, by decide, ?_⟩
  · intro st dfl clk it env ff ef fd
    rfl
  · intro st dfl clk it env hv hdl h1
    rcases hs : env.sysInfoRes with _ | q <;>
      rcases hvr : env.verRes with _ | ⟨vs, ver⟩ <;>
        rcases hsub : env.submitRes with _ | ok <;>
          simp [runItem, h1, hdl, hs, hvr, hsub]
  · intro st dfl clk it env hv p hdl h1 h2
    rcases hvr : env.verRes with _ | ⟨vs, ver⟩ <;>
      rcases hsub : env.submitRes with _ | ok <;>
        simp [runItem, h1, hdl, h2, hvr, hsub]
  · intro projectDir
    rw [ExportButton_getProjectExportsPath]
    exact List.getLast?_concat _

/-- C5 (amended) at a concrete item: the download-enabled folder
equation applied to the counterexample settings and environment, every
hypothesis discharged by evaluation. -/
theorem claim_C5_amended_witness :
    (runItem c5Settings testDefaults testClock ⟨"W".toList⟩ c5Env).folderUsed
      = c5Env.sysInfoRes :=
  claim_C5_amended.2.1 c5Settings testDefaults testClock ⟨"W".toList⟩ c5Env
    true (by decide) (by decide)

/-- C8.  Sanitization: each reserved character of a sequence name is
replaced by an underscore and every other character is kept, position by
position; the name My:Seq/Test sanitizes to My_Seq_Test; and in the
batch pipeline every submitted output path is built from the sanitized
name — the folder, the separator, then the pattern rendered with the
sanitized name — so the name is sanitized before any path
construction. -/
theorem claim_C8_sanitize :
    (sanitizeName "My:Seq/Test".toList = "My_Seq_Test".toList)
    ∧ (∀ (s : List Char) (i : Nat),
        (sanitizeName s)[i]? = s[i]?.map (fun c => if c ∈ badChars then '_' else c))
    ∧ (∀ (st : Settings) (dfl : Defaults) (clk : Clock) (it : Item) (env : ItemEnv)
        (info : SubmitInfo),
        (runItem st dfl clk it env).submitted = some info →
        ∃ (folderPath : List Char) (version : Nat),
          (runItem st dfl clk it env).folderUsed = some folderPath ∧
          info.outputPath = folderPath ++ sepFor folderPath ::
            parseSuffixPattern (namingPatternOf st) version (sanitizeName it.name) clk) := by
  refine ⟨by decide, ?_, ?_⟩
  · intro s i
    simp [sanitizeName]
  · intro st dfl clk it env info h
    rcases h1 : env.videoRes with _ | hv
    · rw [runItem, h1] at h
      simp at h
    · rcases hfr : (if st.downloadEnabled then env.sysInfoRes
        else
          match env.exportsPathRes with
          | some (some p) => some p
          | _ => none) with _ | folderPath
      · rw [runItem, h1] at h
        simp only [hfr] at h
        simp at h
      · rcases hvr : env.verRes with _ | ⟨vs, ver⟩
        · rw [runItem, h1] at h
          simp only [hfr, hvr] at h
          simp at h
        · rcases hsub : env.submitRes with _ | ok <;>
          · rw [runItem, h1] at h ⊢
            simp only [hfr, hvr, hsub] at h ⊢
            refine ⟨folderPath, if vs then ver else 1, rfl, ?_⟩
            have hinfo := Option.some.inj h
            rw [← hinfo]

/-- C8 at a concrete item: the output-path equation applied to a name
that contains reserved characters, the hypothesis discharged by
evaluation. -/
theorem claim_C8_sanitize_witness :
    ∃ (folderPath : List Char) (version : Nat),
      (runItem testSettings testDefaults testClock ⟨"My:Seq/Test".toList⟩
          goodEnv).folderUsed = some folderPath ∧
      (SubmitInfo.mk "My:Seq/Test".toList "/exports/My_Seq_Test_V1".toList
          "/v.epr".toList).outputPath
        = folderPath ++ sepFor folderPath ::
            parseSuffixPattern (namingPatternOf testSettings) version
              (sanitizeName "My:Seq/Test".toList) testClock :=
  claim_C8_sanitize.2.2 testSettings testDefaults testClock
    ⟨"My:Seq/Test".toList⟩ goodEnv
    (SubmitInfo.mk "My:Seq/Test".toList "/exports/My_Seq_Test_V1".toList
      "/v.epr".toList) (by decide)

/-! ## Selection query with timeout (client/main.js handleExport)

handleExport guards the selection query with a three-second timer and a
shared flag: whichever of the timeout handler and the query callback
runs first sets the flag and acts; the other sees the flag and returns.
The scenario type fixes which of the two fires first; the shared-flag
discipline itself is translated from the source. -/

/-- The parsed fields of the selection reply that handleExport reads. -/
structure SelInfo where
  success : Bool
  count : Nat
  deriving DecidableEq, Repr

/-- What handleExport dispatches to. -/
inductive HandlerAct
  | singleExport
  | batchExport (count : Nat)
  deriving DecidableEq, Repr

/-- The shared flag and the dispatches performed so far. -/
structure HandlerState where
  selectionCallbackFired : Bool
  actions : List HandlerAct
  deriving DecidableEq, Repr

/-- The three-second timeout handler: if the callback has not fired, set
the flag and fall back to the single-item active-sequence export. -/
def selectionTimeoutHandler (st : HandlerState) : HandlerState :=
  if st.selectionCallbackFired then st
  else ⟨true, st.actions ++ [.singleExport]⟩

/-- The selection-query callback: a late arrival (flag already set) is
ignored; otherwise the flag is set and the reply dispatched — batch mode
when it parses with success and a positive count, the single-item path
when it reports no selection or fails to parse. -/
def selectionCallback (res : Option SelInfo) (st : HandlerState) : HandlerState :=
  if st.selectionCallbackFired then st
  else
    match res with
    | some info =>
      if info.success ∧ 0 < info.count then ⟨true, st.actions ++ [.batchExport info.count]⟩
      else ⟨true, st.actions ++ [.singleExport]⟩
    | none => ⟨true, st.actions ++ [.singleExport]⟩

/-- Which of the timer and the callback fires first, and — when the
timer wins — whether a late callback arrives afterwards with some
reply. -/
inductive SelScenario
  | onTime (res : Option SelInfo)
  | timedOut (late : Option (Option SelInfo))

/-- handleExport: the direct-export mode takes the single-item path
outright; otherwise the timer and the callback race under the shared
flag (an on-time callback clears the timer, so the timeout handler never
runs in that case). -/
def handleExport (premiereDirect : Bool) (sc : SelScenario) : List HandlerAct :=
  if premiereDirect then [.singleExport]
  else
    match sc with
    | .onTime res => (selectionCallback res ⟨false, []⟩).actions
    | .timedOut none => (selectionTimeoutHandler ⟨false, []⟩).actions
    | .timedOut (some res) =>
      (selectionCallback res (selectionTimeoutHandler ⟨false, []⟩)).actions

/-- C7.  Whenever the selection query misses the three-second window,
handleExport dispatches the single-item active-sequence export exactly
once and nothing else: whatever reply a late callback delivers — even a
successful multi-sequence selection — it is ignored, so no second export
is dispatched and the batch orchestrator (the only caller of the
deferred start-batch call) is never entered. -/
theorem claim_C7_timeout_single_fallback :
    (∀ late, handleExport false (SelScenario.timedOut late) = [HandlerAct.singleExport])
    ∧ (∀ late, (handleExport false (SelScenario.timedOut late)).count
        HandlerAct.singleExport = 1)
    ∧ (∀ late n, HandlerAct.batchExport n ∉ handleExport false (SelScenario.timedOut late)) := by
  have hbase : ∀ late, handleExport false (SelScenario.timedOut late)
      = [HandlerAct.singleExport] := by
    intro late
    rcases late with _ | res
    · rfl
    · rw [handleExport]
      simp only [Bool.false_eq_true, if_false]
      rw [show selectionTimeoutHandler ⟨false, []⟩ = ⟨true, [HandlerAct.singleExport]⟩ from rfl,
          selectionCallback.eq_def]
      rfl
  refine ⟨hbase, fun late => by rw [hbase]; rfl, fun late n hmem => ?_⟩
  rw [hbase] at hmem
  simp at hmem

end ExportButton
